import Mathlib

/-!
Verification of the wheel-restructuring core of `scripts/builder.py`.

The development shallowly embeds the functions `update_record`, `pack_wheel`,
`resolve_dependencies`, the dependency-bundling / library-placement /
rpath-rewriting parts of `restructure_wheel`, and the numpy-specifier
normalization of `write_setup_py`.  Files are byte lists (`List Nat`,
each element a byte value), paths are component lists (`List String`),
and the unpacked wheel tree is an ordered tree whose child order models
the directory-entry order the OS reports to `Path.rglob`.
-/

/-- A node of the unpacked tree: a regular file with its bytes, or a
directory with its ordered children (the order `os.scandir` yields). -/
inductive FsTree where
  | file (name : String) (content : List Nat) : FsTree
  | dir (name : String) (children : List FsTree) : FsTree

/-- Name of a tree node. -/
def FsTree.name : FsTree → String
  | .file n _ => n
  | .dir n _ => n

/-- The regular files that are immediate children of a directory listing,
with their single-component relative paths, in listing order.  This is the
part of `Path.rglob("*")` (filtered by `is_file()`) contributed by one
directory's own entries. -/
def topFiles : List FsTree → List (List String × List Nat)
  | [] => []
  | .file n c :: ts => ([n], c) :: topFiles ts
  | .dir _ _ :: ts => topFiles ts

/-- The regular files found below the subdirectories of a listing, in
`rglob` order: the recursive glob first yields all entries of a directory,
then descends into each subdirectory in listing order. -/
def subFiles : List FsTree → List (List String × List Nat)
  | [] => []
  | .file _ _ :: ts => subFiles ts
  | .dir n cs :: ts =>
      ((topFiles cs ++ subFiles cs).map (fun e => (n :: e.1, e.2))) ++ subFiles ts
termination_by ts => sizeOf ts

/-- All regular files below a root listing, with relative paths, in the
order `root.rglob("*")` yields them (files of the root first, then each
subdirectory's subtree in listing order). -/
def forestFiles (ts : List FsTree) : List (List String × List Nat) :=
  topFiles ts ++ subFiles ts

/-- Replace the content of the regular file at a relative path (no-op when
the path does not name a regular file).  Models writing a file in place. -/
def setFileIn : List FsTree → List String → List Nat → List FsTree
  | [], _, _ => []
  | t :: ts, [], _ => t :: ts
  | .file n b :: ts, p :: ps, c =>
      (if n = p ∧ ps = [] then .file n c else .file n b) :: setFileIn ts (p :: ps) c
  | .dir n cs :: ts, p :: ps, c =>
      (if n = p then FsTree.dir n (setFileIn cs ps c) else .dir n cs) :: setFileIn ts (p :: ps) c
termination_by ts _ _ => sizeOf ts

/-- Names of the regular files of a listing, in order. -/
def fileNamesOf : List FsTree → List String
  | [] => []
  | .file n _ :: ts => n :: fileNamesOf ts
  | .dir _ _ :: ts => fileNamesOf ts

/-- Names of the directories of a listing, in order. -/
def dirNamesOf : List FsTree → List String
  | [] => []
  | .file _ _ :: ts => dirNamesOf ts
  | .dir n _ :: ts => n :: dirNamesOf ts

/-- Each directory of a real filesystem lists distinct names; this checks
that below every directory of a listing. -/
def childrenWf : List FsTree → Bool
  | [] => true
  | .file _ _ :: ts => childrenWf ts
  | .dir _ cs :: ts => (decide ((cs.map FsTree.name).Nodup) && childrenWf cs) && childrenWf ts
termination_by ts => sizeOf ts

/-- Well-formed root listing: distinct names at every level. -/
def wfForest (ts : List FsTree) : Bool :=
  decide ((ts.map FsTree.name).Nodup) && childrenWf ts

/-- Final component of a relative path (`Path.name`). -/
def lastName (p : List String) : String := p.getLastD ""

/-- Render a component path the way `str(path.relative_to(root))` does. -/
def renderPath (p : List String) : String := String.intercalate "/" p

/-! ### SHA-256 (FIPS 180-4), as used by `hashlib.sha256` -/

/-- Truncating 32-bit addition. -/
def add32 (a b : Nat) : Nat := (a + b) % 4294967296

/-- Rotate a 32-bit word right by `n` bits. -/
def rotr32 (x n : Nat) : Nat :=
  ((x >>> n) ||| (x <<< (32 - n))) % 4294967296

/-- Bitwise complement of a 32-bit word. -/
def not32 (x : Nat) : Nat := 4294967295 - x

def bsig0 (x : Nat) : Nat := (rotr32 x 2) ^^^ (rotr32 x 13) ^^^ (rotr32 x 22)
def bsig1 (x : Nat) : Nat := (rotr32 x 6) ^^^ (rotr32 x 11) ^^^ (rotr32 x 25)
def ssig0 (x : Nat) : Nat := (rotr32 x 7) ^^^ (rotr32 x 18) ^^^ (x >>> 3)
def ssig1 (x : Nat) : Nat := (rotr32 x 17) ^^^ (rotr32 x 19) ^^^ (x >>> 10)
def chf (x y z : Nat) : Nat := (x &&& y) ^^^ ((not32 x) &&& z)
def majf (x y z : Nat) : Nat := (x &&& y) ^^^ (x &&& z) ^^^ (y &&& z)

/-- The 64 SHA-256 round constants. -/
def k256 : List Nat :=
  [1116352408, 1899447441, 3049323471, 3921009573, 961987163, 1508970993,
   2453635748, 2870763221, 3624381080, 310598401, 607225278, 1426881987,
   1925078388, 2162078206, 2614888103, 3248222580, 3835390401, 4022224774,
   264347078, 604807628, 770255983, 1249150122, 1555081692, 1996064986,
   2554220882, 2821834349, 2952996808, 3210313671, 3336571891, 3584528711,
   113926993, 338241895, 666307205, 773529912, 1294757372, 1396182291,
   1695183700, 1986661051, 2177026350, 2456956037, 2730485921, 2820302411,
   3259730800, 3345764771, 3516065817, 3600352804, 4094571909, 275423344,
   430227734, 506948616, 659060556, 883997877, 958139571, 1322822218,
   1537002063, 1747873779, 1955562222, 2024104815, 2227730452, 2361852424,
   2428436474, 2756734187, 3204031479, 3329325298]

/-- Initial SHA-256 hash state. -/
def h256 : List Nat :=
  [1779033703, 3144134277, 1013904242, 2773480762, 1359893119, 2600822924,
   528734635, 1541459225]

/-- Big-endian bytes of a value, fixed width `n` bytes. -/
def beBytes (n v : Nat) : List Nat :=
  match n with
  | 0 => []
  | m + 1 => beBytes m (v >>> 8) ++ [v % 256]

/-- SHA-256 message padding: append `0x80`, zeros, and the 64-bit
big-endian bit length, to a multiple of 64 bytes. -/
def sha256pad (msg : List Nat) : List Nat :=
  msg ++ [0x80] ++ List.replicate ((64 - ((msg.length + 9) % 64)) % 64) 0
      ++ beBytes 8 (8 * msg.length)

/-- Accumulate bytes into blocks: `cur` holds the current block reversed,
`k` the remaining capacity of the current block. -/
def chunkAux : List Nat → Nat → List Nat → List (List Nat)
  | cur, _, [] => if cur.isEmpty then [] else [cur.reverse]
  | cur, 0, b :: bs => cur.reverse :: chunkAux [b] 63 bs
  | cur, k + 1, b :: bs => chunkAux (b :: cur) k bs

/-- Split a byte list into 64-byte blocks. -/
def chunk64 (l : List Nat) : List (List Nat) := chunkAux [] 64 l

/-- Combine 4 consecutive bytes into big-endian 32-bit words. -/
def bytesToWords : List Nat → List Nat
  | b0 :: b1 :: b2 :: b3 :: rest =>
      (((b0 <<< 8 ||| b1) <<< 8 ||| b2) <<< 8 ||| b3) :: bytesToWords rest
  | _ => []

/-- Extend the 16 block words by `n` further schedule words
(`w[i] = ssig1 w[i-2] + w[i-7] + ssig0 w[i-15] + w[i-16]`). -/
def extendWords (ws : List Nat) : Nat → List Nat
  | 0 => ws
  | n + 1 =>
      let v := extendWords ws n
      v ++ [add32 (add32 (ssig1 (v.getD (v.length - 2) 0)) (v.getD (v.length - 7) 0))
                  (add32 (ssig0 (v.getD (v.length - 15) 0)) (v.getD (v.length - 16) 0))]

/-- Working state of the compression function. -/
structure Hash8 where
  a : Nat
  b : Nat
  c : Nat
  d : Nat
  e : Nat
  f : Nat
  g : Nat
  h : Nat

/-- One SHA-256 round. -/
def round256 (s : Hash8) (kw : Nat × Nat) : Hash8 :=
  let t1 := add32 (add32 (add32 s.h (bsig1 s.e)) (add32 (chf s.e s.f s.g) kw.1)) kw.2
  let t2 := add32 (bsig0 s.a) (majf s.a s.b s.c)
  ⟨add32 t1 t2, s.a, s.b, s.c, add32 s.d t1, s.e, s.f, s.g⟩

/-- Compress one 64-byte block into the running hash state. -/
def compress (h : List Nat) (block : List Nat) : List Nat :=
  let ws := extendWords (bytesToWords block) 48
  let s0 : Hash8 := ⟨h.getD 0 0, h.getD 1 0, h.getD 2 0, h.getD 3 0,
                     h.getD 4 0, h.getD 5 0, h.getD 6 0, h.getD 7 0⟩
  let s := (k256.zip ws).foldl round256 s0
  [add32 (h.getD 0 0) s.a, add32 (h.getD 1 0) s.b, add32 (h.getD 2 0) s.c,
   add32 (h.getD 3 0) s.d, add32 (h.getD 4 0) s.e, add32 (h.getD 5 0) s.f,
   add32 (h.getD 6 0) s.g, add32 (h.getD 7 0) s.h]

/-- SHA-256 digest (32 bytes) of a byte list. -/
def sha256 (msg : List Nat) : List Nat :=
  ((chunk64 (sha256pad msg)).foldl compress h256).foldr (fun w acc => beBytes 4 w ++ acc) []

/-! ### URL-safe base64 without padding (`base64.urlsafe_b64encode` + `rstrip(b'=')`) -/

/-- The URL-safe base64 alphabet. -/
def b64Alphabet : List Char :=
  "ABCDEFGHIJKLMNOPQRSTUVWXYZabcdefghijklmnopqrstuvwxyz0123456789-_".data

/-- Character for a 6-bit value. -/
def alphChar (i : Nat) : Char := b64Alphabet.getD i 'A'

/-- Base64-encode 3-byte groups, padding the final partial group with `=`. -/
def b64Groups : List Nat → List Char
  | [] => []
  | [b1] => [alphChar (b1 >>> 2), alphChar ((b1 % 4) <<< 4), '=', '=']
  | [b1, b2] =>
      [alphChar (b1 >>> 2), alphChar (((b1 % 4) <<< 4) ||| (b2 >>> 4)),
       alphChar ((b2 % 16) <<< 2), '=']
  | b1 :: b2 :: b3 :: rest =>
      [alphChar (b1 >>> 2), alphChar (((b1 % 4) <<< 4) ||| (b2 >>> 4)),
       alphChar (((b2 % 16) <<< 2) ||| (b3 >>> 6)), alphChar (b3 % 64)] ++ b64Groups rest

/-- Strip trailing `=` characters. -/
def rstripEq (cs : List Char) : List Char :=
  (cs.reverse.dropWhile (fun c => c == '=')).reverse

/-- URL-safe base64 of a byte list with `=` padding stripped, as the code
computes `base64.urlsafe_b64encode(...).decode('ascii').rstrip('=')`. -/
def b64urlNoPad (bs : List Nat) : String := ⟨rstripEq (b64Groups bs)⟩

/-! ### CSV writing (`csv.writer` with default dialect) -/

/-- Characters that force `csv.writer` to quote a field: the delimiter,
the quote character, and the line-terminator characters. -/
def csvSpecial (c : Char) : Bool := c == ',' || c == '"' || c == '\r' || c == '\n'

/-- A field `csv.writer` emits verbatim. -/
def csvClean (s : String) : Bool := s.data.all (fun c => !csvSpecial c)

/-- Quote a field the way `csv.writer` (QUOTE_MINIMAL) does. -/
def csvField (s : String) : String :=
  if csvClean s then s
  else ⟨'"' :: (s.data.foldr (fun c acc => (if c == '"' then ['"', '"'] else [c]) ++ acc) []) ++ ['"']⟩

/-! ### `update_record` and `pack_wheel` -/

/-- One RECORD row: relative path, digest field, size field. -/
abbrev RecRow := List String × String × String

/-- The row `update_record` writes for one regular file: relative path,
`sha256=` followed by the unpadded URL-safe base64 SHA-256 digest of the
file bytes, and the decimal byte count. -/
def rowFor (e : List String × List Nat) : RecRow :=
  (e.1, "sha256=" ++ b64urlNoPad (sha256 e.2), Nat.repr e.2.length)

/-- Relative path of the manifest, `dist_info / "RECORD"`. -/
def recordPath (distInfo : List String) : List String := distInfo ++ ["RECORD"]

/-- The rows `update_record` writes: one per regular file of the tree in
`rglob` order, skipping files named `RECORD`, then a final row for the
manifest itself with empty digest and size fields. -/
def updateRecordRows (ts : List FsTree) (distInfo : List String) : List RecRow :=
  ((forestFiles ts).filter (fun e => lastName e.1 != "RECORD")).map rowFor
    ++ [(recordPath distInfo, "", "")]

/-- One serialized CSV line of a row (without the `\r\n` terminator). -/
def lineOfRow (r : RecRow) : String :=
  csvField (renderPath r.1) ++ "," ++ csvField r.2.1 ++ "," ++ csvField r.2.2

/-- The manifest text: each row's line terminated by `\r\n`. -/
def serializeRecord (rows : List RecRow) : String :=
  String.join (rows.map (fun r => lineOfRow r ++ "\r\n"))

/-- Manifest text as bytes (code points of the ASCII text). -/
def recordBytes (rows : List RecRow) : List Nat :=
  (serializeRecord rows).data.map Char.toNat

/-- The tree as it stands when `pack_wheel` runs: `update_record` has
rewritten the manifest file in place. -/
def restructuredTree (ts : List FsTree) (distInfo : List String) : List FsTree :=
  setFileIn ts (recordPath distInfo) (recordBytes (updateRecordRows ts distInfo))

/-- The archive entries `pack_wheel` writes: every regular file of the
tree, with its relative path, in `rglob` order. -/
def packEntries (ts : List FsTree) : List (List String × List Nat) :=
  forestFiles ts

/-! ### Lexicographic string order (used only to state the ordering claim) -/

/-- Strict lexicographic order on character lists, by code point. -/
def lexLtCh : List Char → List Char → Bool
  | [], [] => false
  | [], _ :: _ => true
  | _ :: _, [] => false
  | a :: as, b :: bs => if a == b then lexLtCh as bs else Nat.blt a.toNat b.toNat

/-- Lexicographic `≤` on strings. -/
def strLeB (a b : String) : Bool := (a == b) || lexLtCh a.data b.data

/-- Is a string list sorted lexicographically? -/
def sortedStrings : List String → Bool
  | [] => true
  | [_] => true
  | a :: b :: r => strLeB a b && sortedStrings (b :: r)

/-! ### `resolve_dependencies` -/

/-- Kind of a filesystem entry at a candidate location. -/
inductive FKind where
  | file : FKind
  | dirE : FKind
deriving DecidableEq

/-- Flat model of the host filesystem seen by `resolve_dependencies`:
absolute path, and what kind of entry sits there. -/
abbrev HostFs := List (String × FKind)

/-- Absolute path of candidate `name` inside directory `d`. -/
def joinPath (d n : String) : String := d ++ "/" ++ n

/-- What sits at a path. -/
def kindAt (pfs : HostFs) (p : String) : Option FKind := pfs.lookup p

/-- `Path.exists()`: true for any entry, directories included. -/
def pexists (pfs : HostFs) (p : String) : Bool := (kindAt pfs p).isSome

/-- Does `s` start with `pre`? -/
def strHasLead (s pre : String) : Bool := go s.data pre.data
where
  go : List Char → List Char → Bool
    | _, [] => true
    | [], _ :: _ => false
    | a :: as, b :: bs => a == b && go as bs

/-- The fixed system-library name allowlist of `resolve_dependencies`. -/
def sysNames : List String :=
  ["libc.so", "libdl.so", "libm.so", "libpthread.so", "librt.so",
   "libgcc_s.so", "libstdc++.so", "ld-linux"]

/-- A needed name the resolver skips: it starts with an allowlist entry or
with `libpython`. -/
def isExcluded (name : String) : Bool :=
  sysNames.any (fun p => strHasLead name p) || strHasLead name "libpython"

/-- The fixed candidate directories, in search order. -/
def searchDirs : List String :=
  ["/usr/lib/x86_64-linux-gnu", "/usr/lib/aarch64-linux-gnu", "/usr/lib", "/usr/local/lib"]

/-- First candidate directory whose entry for `name` exists. -/
def firstHit (pfs : HostFs) (name : String) : Option String :=
  searchDirs.find? (fun d => pexists pfs (joinPath d name))

/-- Process one needed name: skip excluded names, add the first hit as
`(directory, name)`, or record the name as an unresolved warning. -/
def resolveStep (pfs : HostFs) (acc : Finset (String × String) × List String)
    (name : String) : Finset (String × String) × List String :=
  if isExcluded name then acc
  else
    match firstHit pfs name with
    | some d => (insert (d, name) acc.1, acc.2)
    | none => (acc.1, acc.2 ++ [name])

/-- `resolve_dependencies`: the set of resolved `(directory, name)` pairs
and the list of unresolved names it warns about, from the needed list. -/
def resolveDependencies (pfs : HostFs) (needed : List String) :
    Finset (String × String) × List String :=
  needed.foldl (resolveStep pfs) (∅, [])

/-! ### Dependency bundling into the libraries subtree -/

/-- Entries of the staged `lib` directory: file name and bytes. -/
abbrev LibDir := List (String × List Nat)

/-- The bytes of the staged entry with a given name, when one exists
(the `(lib_dest / name).exists()` check of the code). -/
def findEntry (dest : LibDir) (n : String) : Option (List Nat) :=
  match dest with
  | [] => none
  | (k, v) :: rest => if k = n then some v else findEntry rest n

/-- Number of entries with a given name. -/
def countName (dest : LibDir) (n : String) : Nat :=
  (dest.filter (fun e => decide (e.1 = n))).length

/-- Copy one resolved dependency into the libraries subtree unless an
entry of that name already exists there. -/
def copyDep (dest : LibDir) (dep : String × List Nat) : LibDir :=
  if (findEntry dest dep.1).isSome then dest else dest ++ [dep]

/-- Copy one consumer's resolved dependencies in order. -/
def bundleDeps (dest : LibDir) (deps : List (String × List Nat)) : LibDir :=
  deps.foldl copyDep dest

/-- Copy every consumer's resolved dependencies in pipeline order. -/
def bundleAll (dest : LibDir) (consumers : List (List (String × List Nat))) : LibDir :=
  consumers.foldl bundleDeps dest

/-! ### Library artifact placement (`libuhd.so*` glob results) -/

/-- A discovered `libuhd.so*` artifact: a real file with its bytes, or a
symlink with the bytes of its resolved target. -/
inductive LibArtifact where
  | real (name : String) (content : List Nat) : LibArtifact
  | symlink (name : String) (target : List Nat) : LibArtifact
deriving DecidableEq

/-- Name of an artifact. -/
def LibArtifact.name : LibArtifact → String
  | .real n _ => n
  | .symlink n _ => n

/-- Write a regular file into the staged directory, overwriting an
existing entry of the same name (`shutil.copy` semantics). -/
def upsert (dest : LibDir) (n : String) (c : List Nat) : LibDir :=
  if (findEntry dest n).isSome
  then dest.map (fun e => if e.1 = n then (n, c) else e)
  else dest ++ [(n, c)]

/-- Place one artifact: a symlink named `libuhd.so` becomes a real copy of
its target under that name; any other symlink is skipped; a real file is
copied under its own name. -/
def placeLib (dest : LibDir) : LibArtifact → LibDir
  | .symlink n t => if n = "libuhd.so" then upsert dest "libuhd.so" t else dest
  | .real n c => upsert dest n c

/-- Place every discovered artifact in glob order. -/
def placeLibs (arts : List LibArtifact) : LibDir :=
  arts.foldl placeLib []

/-! ### Runtime search-path rewriting (`patchelf --set-rpath`) -/

/-- An ELF binary, reduced to the parts the rewrite touches: its other
bytes and its runtime search-path record. -/
structure Binary where
  bytes : List Nat
  rpath : String

/-- `patchelf --set-rpath`: the search path is replaced outright. -/
def setRpath (b : Binary) (r : String) : Binary := { b with rpath := r }

/-- Where the restructuring places a binary. -/
inductive PlacementKind where
  | script : PlacementKind
  | pyext : PlacementKind
  | bundledDep : PlacementKind
  | libuhdCopy : PlacementKind

/-- The search path `restructure_wheel` sets for each placement. -/
def rpathFor : PlacementKind → String
  | .script => "$ORIGIN/../lib"
  | .pyext => "$ORIGIN/../../.."
  | .bundledDep => "$ORIGIN"
  | .libuhdCopy => "$ORIGIN"

/-- Split a search path on `:` into its components. -/
def splitColon (s : List Char) : List (List Char) :=
  match s with
  | [] => [[]]
  | c :: cs =>
      let r := splitColon cs
      if c == ':' then [] :: r
      else (c :: r.headD []) :: r.tail

/-- No component of the search path is an absolute path. -/
def noAbsComponent (s : String) : Bool :=
  (splitColon s.data).all (fun comp => !(comp.headD ' ' == '/'))

/-- The four magic bytes every ELF file starts with. -/
def elfMagic : List Nat := [0x7f, 0x45, 0x4c, 0x46]

/-- Outcome of handling one file placed in the scripts location. -/
structure ScriptOutcome where
  invoked : Bool
  out : Binary
  warnings : List String

/-- Handling of one scripts-location file in `restructure_wheel`: read the
first four bytes; if they are the ELF magic, set the search path; otherwise
do nothing (the code has no else branch, so nothing is logged). -/
def processScriptItem (b : Binary) : ScriptOutcome :=
  if b.bytes.take 4 = elfMagic
  then ⟨true, setRpath b (rpathFor .script), []⟩
  else ⟨false, b, []⟩

/-! ### NumPy specifier normalization (`write_setup_py`) -/

/-- Does the specifier contain one of the operator characters the code
tests for (`<`, `>`, `=`, `!`)? -/
def hasOpChar (s : List Char) : Bool :=
  s.any (fun c => c == '<' || c == '>' || c == '=' || c == '!')

/-- Does `s` start with `pre` (character lists)? -/
def leadsWith : List Char → List Char → Bool
  | _, [] => true
  | [], _ :: _ => false
  | a :: as, b :: bs => a == b && leadsWith as bs

/-- The characters of `numpy`. -/
def numpyChars : List Char := ['n', 'u', 'm', 'p', 'y']

/-- The normalization `write_setup_py` applies to `--numpy-spec`: insert
`==` when no operator character is present, then prepend `numpy` when the
result does not already start with it. -/
def normalizeNumpySpec (s : List Char) : List Char :=
  let s1 := if hasOpChar s then s else '=' :: '=' :: s
  if leadsWith s1 numpyChars then s1 else numpyChars ++ s1

/-! ### Concrete example inputs used by witnesses and counterexamples -/

/-- A small unpacked wheel: a dist-info directory holding the manifest,
and one module file (bytes of `hi`). -/
def wheelTreeEx : List FsTree :=
  [.dir "u.dist-info" [.file "RECORD" []], .file "m.py" [104, 105]]

/-- A tree whose directory-entry order is not lexicographic. -/
def unsortedTreeEx : List FsTree :=
  [.dir "di" [.file "RECORD" []], .file "q.txt" [1], .file "a.txt" [2]]

/-- Host filesystem where the first candidate directory holds a directory
named like the wanted library and a later candidate holds the regular
file. -/
def hostFsEx : HostFs :=
  [("/usr/lib/x86_64-linux-gnu/libfoo.so.1", .dirE), ("/usr/lib/libfoo.so.1", .file)]

/-- Host filesystem holding the two scenario-A libraries. -/
def hostFsUsb : HostFs :=
  [("/usr/lib/libusb-1.0.so.0", .file),
   ("/usr/lib/x86_64-linux-gnu/libboost_program_options.so.1.74.0", .file)]

/-! ## Structure lemmas about the `rglob` traversal -/

/-- Every relative path the traversal yields is nonempty. -/
theorem topFiles_path_ne_nil : ∀ (ts : List FsTree), ∀ e ∈ topFiles ts, e.1 ≠ []
  | .file n c :: ts, e, he => by
    simp only [topFiles, List.mem_cons] at he
    rcases he with h | h
    · simp [h]
    · exact topFiles_path_ne_nil ts e h
  | .dir n cs :: ts, e, he => by
    simp only [topFiles] at he
    exact topFiles_path_ne_nil ts e he

/-- Every relative path found below a subdirectory is nonempty. -/
theorem subFiles_path_ne_nil (ts : List FsTree) : ∀ e ∈ subFiles ts, e.1 ≠ [] := by
  induction ts using subFiles.induct with
  | case1 => simp [subFiles]
  | case2 _ _ ts ih =>
    simpa only [subFiles] using ih
  | case3 n cs ts ih2 ih1 =>
    intro e he
    simp only [subFiles, List.mem_append, List.mem_map] at he
    rcases he with ⟨a, _, rfl⟩ | h
    · simp
    · exact ih1 e h

/-- Every relative path of the traversal is nonempty. -/
theorem forestFiles_path_ne_nil (ts : List FsTree) : ∀ e ∈ forestFiles ts, e.1 ≠ [] := by
  intro e he
  rcases List.mem_append.1 he with h | h
  · exact topFiles_path_ne_nil ts e h
  · exact subFiles_path_ne_nil ts e h

/-- The paths of the immediate file entries are the file names. -/
theorem map_fst_topFiles : ∀ ts : List FsTree,
    (topFiles ts).map Prod.fst = (fileNamesOf ts).map (fun n => [n])
  | [] => rfl
  | .file n c :: ts => by
    simp only [topFiles, fileNamesOf, List.map_cons, map_fst_topFiles ts]
  | .dir n cs :: ts => by
    simp only [topFiles, fileNamesOf, map_fst_topFiles ts]

/-- File names are a sublist of all names. -/
theorem fileNamesOf_sublist : ∀ ts : List FsTree, List.Sublist (fileNamesOf ts) (ts.map FsTree.name)
  | [] => List.Sublist.refl _
  | .file n c :: ts => by
    simpa only [fileNamesOf, List.map_cons] using (fileNamesOf_sublist ts).cons₂ n
  | .dir n cs :: ts => by
    simpa only [fileNamesOf, List.map_cons] using (fileNamesOf_sublist ts).cons n

/-- Directory names are a sublist of all names. -/
theorem dirNamesOf_sublist : ∀ ts : List FsTree, List.Sublist (dirNamesOf ts) (ts.map FsTree.name)
  | [] => List.Sublist.refl _
  | .file n c :: ts => by
    simpa only [dirNamesOf, List.map_cons] using (dirNamesOf_sublist ts).cons n
  | .dir n cs :: ts => by
    simpa only [dirNamesOf, List.map_cons] using (dirNamesOf_sublist ts).cons₂ n

/-- Every path found below the subdirectories starts with a directory name
and continues with a nonempty remainder. -/
theorem subFiles_path_shape (ts : List FsTree) :
    ∀ e ∈ subFiles ts, ∃ n q, e.1 = n :: q ∧ n ∈ dirNamesOf ts ∧ q ≠ [] := by
  induction ts using subFiles.induct with
  | case1 => simp [subFiles]
  | case2 m b ts ih =>
    intro e he
    simp only [subFiles] at he
    obtain ⟨n, q, h1, h2, h3⟩ := ih e he
    exact ⟨n, q, h1, by simpa [dirNamesOf] using h2, h3⟩
  | case3 n cs ts ih2 ih1 =>
    intro e he
    simp only [subFiles, List.mem_append, List.mem_map] at he
    rcases he with ⟨a, ha, rfl⟩ | h
    · refine ⟨n, a.1, rfl, by simp [dirNamesOf], ?_⟩
      exact forestFiles_path_ne_nil cs a (List.mem_append.2 ha)
    · obtain ⟨m, q, h1, h2, h3⟩ := ih1 e h
      exact ⟨m, q, h1, by simp [dirNamesOf, h2], h3⟩

/-- Rewriting a file's content at a path no entry has leaves a file list
unchanged under the content-replacement map. -/
theorem map_setContent_id (l : List (List String × List Nat)) (p : List String) (c : List Nat)
    (h : ∀ e ∈ l, e.1 ≠ p) :
    l.map (fun e => if e.1 = p then (e.1, c) else e) = l := by
  have h2 : ∀ e ∈ l, (if e.1 = p then (e.1, c) else e) = id e := by
    intro e he
    simp [h e he]
  rw [List.map_congr_left h2, List.map_id]

/-- `setFileIn` replaces exactly the content at the target path among the
immediate file entries. -/
theorem topFiles_setFileIn (ts : List FsTree) (p : List String) (c : List Nat) :
    topFiles (setFileIn ts p c)
      = (topFiles ts).map (fun e => if e.1 = p then (e.1, c) else e) := by
  induction ts, p, c using setFileIn.induct with
  | case1 p c => simp [setFileIn, topFiles]
  | case2 t ts c =>
    rw [setFileIn]
    exact (map_setContent_id _ _ _ (fun e he => topFiles_path_ne_nil _ e he)).symm
  | case3 n b ts p ps c ih =>
    by_cases hh : n = p ∧ ps = []
    · obtain ⟨rfl, rfl⟩ := hh
      simp [setFileIn, topFiles, ih]
    · rw [setFileIn, if_neg hh]
      have : ¬([n] = p :: ps) := by
        intro hc
        exact hh ⟨(List.cons_eq_cons.1 hc).1, ((List.cons_eq_cons.1 hc).2).symm⟩
      simp [topFiles, ih, this]
  | case4 n cs ts p ps c ih2 ih1 =>
    by_cases hh : n = p
    · rw [setFileIn, if_pos hh]
      simp [topFiles, ih1]
    · rw [setFileIn, if_neg hh]
      simp [topFiles, ih1]

/-- `setFileIn` replaces exactly the content at the target path among the
files found below subdirectories. -/
theorem subFiles_setFileIn (ts : List FsTree) (p : List String) (c : List Nat) :
    subFiles (setFileIn ts p c)
      = (subFiles ts).map (fun e => if e.1 = p then (e.1, c) else e) := by
  induction ts, p, c using setFileIn.induct with
  | case1 p c => simp [setFileIn, subFiles]
  | case2 t ts c =>
    rw [setFileIn]
    exact (map_setContent_id _ _ _ (fun e he => subFiles_path_ne_nil _ e he)).symm
  | case3 n b ts p ps c ih =>
    by_cases hh : n = p ∧ ps = []
    · obtain ⟨rfl, rfl⟩ := hh
      simp [setFileIn, subFiles, ih]
    · rw [setFileIn, if_neg hh]
      simp [subFiles, ih]
  | case4 n cs ts p ps c ih2 ih1 =>
    by_cases hh : n = p
    · subst hh
      have hfun : ((fun e => ((n :: e.1, e.2) : List String × List Nat))
            ∘ fun e => if e.1 = ps then (e.1, c) else e)
          = ((fun e => if e.1 = n :: ps then (e.1, c) else e)
            ∘ fun e => ((n :: e.1, e.2) : List String × List Nat)) := by
        funext e
        by_cases he : e.1 = ps <;> simp [he, Function.comp]
      rw [setFileIn, if_pos rfl]
      simp only [subFiles, topFiles_setFileIn, ih2, ih1]
      rw [← List.map_append, List.map_append
          (fun e => if e.1 = n :: ps then (e.1, c) else e), List.map_map, List.map_map, hfun]
    · rw [setFileIn, if_neg hh]
      simp only [subFiles, ih1]
      rw [List.map_append (fun e => if e.1 = p :: ps then (e.1, c) else e)]
      congr 1
      refine (map_setContent_id _ _ _ ?_).symm
      intro e he hc
      rcases List.mem_map.1 he with ⟨a, _, rfl⟩
      exact hh (List.cons_eq_cons.1 hc).1

/-- `setFileIn` replaces only content: the traversal yields the same
paths, with the target path's bytes replaced. -/
theorem forestFiles_setFileIn (ts : List FsTree) (p : List String) (c : List Nat) :
    forestFiles (setFileIn ts p c)
      = (forestFiles ts).map (fun e => if e.1 = p then (e.1, c) else e) := by
  simp [forestFiles, topFiles_setFileIn, subFiles_setFileIn]

/-- The traversal of the rewritten tree visits the same paths in the same
order. -/
theorem map_fst_forestFiles_setFileIn (ts : List FsTree) (p : List String) (c : List Nat) :
    (forestFiles (setFileIn ts p c)).map Prod.fst = (forestFiles ts).map Prod.fst := by
  rw [forestFiles_setFileIn, List.map_map]
  apply List.map_congr_left
  intro e _
  by_cases he : e.1 = p <;> simp [he, Function.comp]

/-- Shape of a path from below the subdirectories, stated on the mapped
path list. -/
theorem subFiles_pathList_shape (ts : List FsTree) :
    ∀ x ∈ (subFiles ts).map Prod.fst, ∃ n q, x = n :: q ∧ n ∈ dirNamesOf ts ∧ q ≠ [] := by
  intro x hx
  rcases List.mem_map.1 hx with ⟨e, he, rfl⟩
  exact subFiles_path_shape ts e he

/-- Shape of a top-level file path, stated on the mapped path list. -/
theorem topFiles_pathList_shape (ts : List FsTree) :
    ∀ x ∈ (topFiles ts).map Prod.fst, ∃ m, x = [m] ∧ m ∈ fileNamesOf ts := by
  intro x hx
  rw [map_fst_topFiles] at hx
  rcases List.mem_map.1 hx with ⟨m, hm, rfl⟩
  exact ⟨m, rfl, hm⟩

/-- On a well-formed tree the traversal yields pairwise distinct relative
paths: every regular file is visited exactly once. -/
theorem nodup_forest_paths (ts : List FsTree) (h1 : (ts.map FsTree.name).Nodup)
    (h2 : childrenWf ts = true) : ((forestFiles ts).map Prod.fst).Nodup := by
  induction ts using childrenWf.induct with
  | case1 => simp [forestFiles, topFiles, subFiles]
  | case2 m b ts ih =>
    simp only [List.map_cons, FsTree.name, List.nodup_cons] at h1
    simp only [childrenWf] at h2
    have hrest := ih h1.2 h2
    have hpaths : (forestFiles (.file m b :: ts)).map Prod.fst
        = [m] :: (forestFiles ts).map Prod.fst := by
      simp [forestFiles, topFiles, subFiles]
    rw [hpaths, List.nodup_cons]
    refine ⟨?_, hrest⟩
    intro hmem
    rw [forestFiles, List.map_append] at hmem
    rcases List.mem_append.1 hmem with h | h
    · obtain ⟨m', hm', hmem'⟩ := topFiles_pathList_shape ts [m] h
      obtain rfl : m = m' := (List.cons_eq_cons.1 hm').1
      exact h1.1 ((fileNamesOf_sublist ts).mem hmem')
    · obtain ⟨n, q, hq, _, hne⟩ := subFiles_pathList_shape ts [m] h
      exact hne (List.cons_eq_cons.1 hq).2.symm
  | case3 n cs ts ih2 ih1 =>
    simp only [List.map_cons, FsTree.name, List.nodup_cons] at h1
    simp only [childrenWf, Bool.and_eq_true, decide_eq_true_eq] at h2
    obtain ⟨⟨hcsnodup, hcswf⟩, htswf⟩ := h2
    have hrest := ih1 h1.2 htswf
    have hcs := ih2 hcsnodup hcswf
    have hcomp : (Prod.fst ∘ fun e => ((n :: e.1, e.2) : List String × List Nat))
        = ((fun p => n :: p) ∘ Prod.fst) := by
      funext e
      rfl
    have hpaths : (forestFiles (.dir n cs :: ts)).map Prod.fst
        = (topFiles ts).map Prod.fst
          ++ (((forestFiles cs).map Prod.fst).map (fun p => n :: p)
              ++ (subFiles ts).map Prod.fst) := by
      simp [forestFiles, topFiles, subFiles, List.map_map, hcomp]
    have hAC : ((topFiles ts).map Prod.fst ++ (subFiles ts).map Prod.fst).Nodup := by
      simpa [forestFiles] using hrest
    rw [List.nodup_append] at hAC
    obtain ⟨hA, hC, hACdisj⟩ := hAC
    have hB : (((forestFiles cs).map Prod.fst).map (fun p => n :: p)).Nodup :=
      hcs.map (fun p q h => (List.cons_eq_cons.1 h).2)
    have hndirs : n ∉ dirNamesOf ts := fun hmem => h1.1 ((dirNamesOf_sublist ts).mem hmem)
    have hBC : ∀ x ∈ ((forestFiles cs).map Prod.fst).map (fun p => n :: p),
        x ∉ (subFiles ts).map Prod.fst := by
      intro x hx hx'
      rcases List.mem_map.1 hx with ⟨q, _, rfl⟩
      obtain ⟨m, r, hq, hm, _⟩ := subFiles_pathList_shape ts _ hx'
      exact hndirs ((List.cons_eq_cons.1 hq).1 ▸ hm)
    have hAB : ∀ x ∈ (topFiles ts).map Prod.fst,
        x ∉ ((forestFiles cs).map Prod.fst).map (fun p => n :: p) := by
      intro x hx hx'
      obtain ⟨m, rfl, _⟩ := topFiles_pathList_shape ts x hx
      rcases List.mem_map.1 hx' with ⟨q, hq, hq'⟩
      rcases List.mem_map.1 hq with ⟨e, he, rfl⟩
      exact forestFiles_path_ne_nil cs e he (List.cons_eq_cons.1 hq').2
    rw [hpaths, List.nodup_append, List.nodup_append]
    exact ⟨hA, ⟨hB, hC, fun x hx => hBC x hx⟩,
      fun x hx => by
        intro hmem
        rcases List.mem_append.1 hmem with h | h
        · exact hAB x hx h
        · exact hACdisj hx h⟩

/-! ## Lemmas about the manifest rows -/

/-- The manifest's own path ends in `RECORD`. -/
theorem lastName_recordPath (d : List String) : lastName (recordPath d) = "RECORD" := by
  simp [lastName, recordPath, List.getLastD_concat]

/-- Filtering out `RECORD`-named entries commutes with taking paths. -/
theorem map_fst_filter_lastName (l : List (List String × List Nat)) :
    ((l.filter (fun e => lastName e.1 != "RECORD")).map Prod.fst)
      = (l.map Prod.fst).filter (fun p => lastName p != "RECORD") := by
  induction l with
  | nil => rfl
  | cons e l ih =>
    by_cases h : lastName e.1 != "RECORD" <;>
      simp_all [List.filter_cons, List.map_cons]

/-- The paths of the manifest rows: the traversal's paths without the
`RECORD`-named ones, then the manifest's own path, in traversal order. -/
theorem updateRecordRows_paths (ts : List FsTree) (distInfo : List String) :
    (updateRecordRows ts distInfo).map (fun r => r.1)
      = ((forestFiles ts).map Prod.fst).filter (fun p => lastName p != "RECORD")
        ++ [recordPath distInfo] := by
  simp only [updateRecordRows, List.map_append, List.map_map, List.map_cons, List.map_nil]
  rw [← map_fst_filter_lastName]
  congr 1

/-- The packed entries visit the same paths as the traversal of the
original tree, in the same order. -/
theorem packEntries_paths (ts : List FsTree) (distInfo : List String) :
    (packEntries (restructuredTree ts distInfo)).map Prod.fst
      = (forestFiles ts).map Prod.fst := by
  simp only [packEntries, restructuredTree]
  exact map_fst_forestFiles_setFileIn ts _ _

/-- On a duplicate-free list an element that occurs, occurs exactly once. -/
theorem countP_eq_one_of_nodup {α} [DecidableEq α] (l : List α) (x : α) (hn : l.Nodup)
    (hx : x ∈ l) : l.countP (fun y => decide (y = x)) = 1 := by
  induction l with
  | nil => cases hx
  | cons a l ih =>
    rw [List.nodup_cons] at hn
    by_cases hax : a = x
    · subst hax
      rw [List.countP_cons_of_pos _ _ (by simp)]
      have : l.countP (fun y => decide (y = a)) = 0 := by
        rw [List.countP_eq_zero]
        intro b hb hba
        exact hn.1 ((by simpa using hba : b = a) ▸ hb)
      omega
    · rw [List.countP_cons_of_neg _ _ (by simpa using hax)]
      exact ih hn.2 (by rcases List.mem_cons.1 hx with h | h; exact absurd h.symm hax; exact h)

/-- A file path that is not `RECORD`-named has exactly one manifest row
(on a well-formed tree). -/
theorem rows_countP_eq_one (ts : List FsTree) (distInfo : List String)
    (hnodup : ((forestFiles ts).map Prod.fst).Nodup) (x : List String)
    (hx : x ∈ (forestFiles ts).map Prod.fst) (hname : lastName x ≠ "RECORD") :
    (updateRecordRows ts distInfo).countP (fun r => decide (r.1 = x)) = 1 := by
  rw [updateRecordRows, List.countP_append, List.countP_map, List.countP_filter]
  simp only [Function.comp]
  have h0 : (forestFiles ts).countP
      (fun a => decide ((rowFor a).1 = x) && (lastName a.1 != "RECORD"))
      = (forestFiles ts).countP (fun a => decide (a.1 = x)) := by
    apply List.countP_congr
    intro a _
    constructor
    · intro h
      rw [Bool.and_eq_true] at h
      exact h.1
    · intro h
      rw [Bool.and_eq_true]
      refine ⟨h, ?_⟩
      rw [decide_eq_true_eq] at h
      have ha : a.1 = x := h
      simp [ha, hname]
  have h1 : (forestFiles ts).countP (fun a => decide (a.1 = x)) = 1 := by
    have := countP_eq_one_of_nodup _ x hnodup hx
    rwa [List.countP_map] at this
  have h2 : List.countP (fun r => decide (r.1 = x)) [(recordPath distInfo, "", "")] = 0 := by
    have : ¬ (recordPath distInfo = x) := by
      intro hcontra
      exact hname (hcontra ▸ lastName_recordPath distInfo)
    simp [List.countP_cons, this]
  rw [h0, h1, h2]

/-- The manifest's own path has exactly one row: its final empty-field
row (no file row may carry a `RECORD`-named path). -/
theorem rows_countP_recordPath (ts : List FsTree) (distInfo : List String) :
    (updateRecordRows ts distInfo).countP
      (fun r => decide (r.1 = recordPath distInfo)) = 1 := by
  rw [updateRecordRows, List.countP_append, List.countP_map, List.countP_filter]
  simp only [Function.comp]
  have h0 : (forestFiles ts).countP
      (fun a => decide ((rowFor a).1 = recordPath distInfo) && (lastName a.1 != "RECORD"))
      = 0 := by
    rw [List.countP_eq_zero]
    intro a _ hcontra
    rw [Bool.and_eq_true, decide_eq_true_eq] at hcontra
    have ha : a.1 = recordPath distInfo := hcontra.1
    have : lastName a.1 = "RECORD" := by
      rw [ha]
      exact lastName_recordPath distInfo
    simp [this] at hcontra
  have h1 : List.countP (fun r => decide (r.1 = recordPath distInfo))
      [(recordPath distInfo, "", "")] = 1 := by
    simp [List.countP_cons]
  rw [h0, h1]

/-- The name-distinctness part of well-formedness, unpacked. -/
theorem wfForest_nodup_paths (ts : List FsTree) (hwf : wfForest ts = true) :
    ((forestFiles ts).map Prod.fst).Nodup := by
  have hwf' : (ts.map FsTree.name).Nodup ∧ childrenWf ts = true := by
    simpa [wfForest, Bool.and_eq_true, decide_eq_true_eq] using hwf
  exact nodup_forest_paths ts hwf'.1 hwf'.2

/-- C1.  Manifest completeness after restructuring: every regular file
`pack_wheel` writes into the archive has exactly one row in the RECORD
manifest `update_record` wrote (the manifest file itself being covered by
its final digest-less row), and every row of the manifest names a file
that is present in the packed archive.  Hypotheses: directory listings
carry distinct names, the manifest file exists in the tree, and it is the
only file named `RECORD` (true of the unpacked wheel the code operates
on). -/
theorem record_manifest_completeness (ts : List FsTree) (distInfo : List String)
    (hwf : wfForest ts = true)
    (hrec : recordPath distInfo ∈ (forestFiles ts).map Prod.fst)
    (huniq : ∀ p ∈ (forestFiles ts).map Prod.fst,
      lastName p = "RECORD" → p = recordPath distInfo) :
    (∀ e ∈ packEntries (restructuredTree ts distInfo),
        (updateRecordRows ts distInfo).countP (fun r => decide (r.1 = e.1)) = 1)
    ∧ (∀ r ∈ updateRecordRows ts distInfo,
        r.1 ∈ (packEntries (restructuredTree ts distInfo)).map Prod.fst) := by
  have hnodup := wfForest_nodup_paths ts hwf
  have hpack := packEntries_paths ts distInfo
  constructor
  · intro e he
    have hx : e.1 ∈ (forestFiles ts).map Prod.fst := by
      rw [← hpack]
      exact List.mem_map_of_mem Prod.fst he
    by_cases hname : lastName e.1 = "RECORD"
    · have hxe : e.1 = recordPath distInfo := huniq e.1 hx hname
      rw [hxe]
      exact rows_countP_recordPath ts distInfo
    · exact rows_countP_eq_one ts distInfo hnodup e.1 hx hname
  · intro r hr
    rw [hpack]
    have hmem : r.1 ∈ (updateRecordRows ts distInfo).map (fun r => r.1) :=
      List.mem_map_of_mem _ hr
    rw [updateRecordRows_paths] at hmem
    rcases List.mem_append.1 hmem with h | h
    · exact (List.mem_filter.1 h).1
    · have : r.1 = recordPath distInfo := by simpa using h
      rw [this]
      exact hrec

/-- Witness for C1 on the example wheel tree. -/
theorem record_manifest_completeness_witness :
    (∀ e ∈ packEntries (restructuredTree wheelTreeEx ["u.dist-info"]),
        (updateRecordRows wheelTreeEx ["u.dist-info"]).countP
          (fun r => decide (r.1 = e.1)) = 1)
    ∧ (∀ r ∈ updateRecordRows wheelTreeEx ["u.dist-info"],
        r.1 ∈ (packEntries (restructuredTree wheelTreeEx ["u.dist-info"])).map Prod.fst) :=
  record_manifest_completeness wheelTreeEx ["u.dist-info"]
    (by simp [wfForest, childrenWf, wheelTreeEx, FsTree.name])
    (by simp [forestFiles, subFiles, topFiles, wheelTreeEx, recordPath])
    (by
      intro p hp
      simp only [forestFiles, subFiles, topFiles, wheelTreeEx, List.map_cons, List.map_nil,
        List.append_nil, List.nil_append, List.cons_append, List.mem_cons,
        List.not_mem_nil, or_false] at hp
      rcases hp with rfl | rfl <;> decide)

/-! ## The record line format -/

/-- Base64 alphabet characters never force CSV quoting. -/
theorem csvSpecial_alphChar (i : Nat) : csvSpecial (alphChar i) = false := by
  have hall : ∀ c ∈ b64Alphabet, csvSpecial c = false := by decide
  by_cases h : i < b64Alphabet.length
  · rw [alphChar, List.getD_eq_getElem?_getD, List.getElem?_eq_getElem h]
    exact hall _ (List.getElem_mem h)
  · rw [alphChar, List.getD_eq_getElem?_getD, List.getElem?_eq_none (Nat.le_of_not_lt h)]
    decide

/-- Base64 output characters never force CSV quoting. -/
theorem csvSpecial_b64Groups (bs : List Nat) : ∀ c ∈ b64Groups bs, csvSpecial c = false := by
  induction bs using b64Groups.induct with
  | case1 => simp [b64Groups]
  | case2 b1 =>
    intro c hc
    simp only [b64Groups, List.mem_cons, List.not_mem_nil, or_false] at hc
    rcases hc with rfl | rfl | rfl | rfl
    · exact csvSpecial_alphChar _
    · exact csvSpecial_alphChar _
    · decide
    · decide
  | case3 b1 b2 =>
    intro c hc
    simp only [b64Groups, List.mem_cons, List.not_mem_nil, or_false] at hc
    rcases hc with rfl | rfl | rfl | rfl
    · exact csvSpecial_alphChar _
    · exact csvSpecial_alphChar _
    · exact csvSpecial_alphChar _
    · decide
  | case4 b1 b2 b3 rest ih =>
    intro c hc
    simp only [b64Groups, List.cons_append, List.nil_append, List.mem_cons] at hc
    rcases hc with rfl | rfl | rfl | rfl | hc
    · exact csvSpecial_alphChar _
    · exact csvSpecial_alphChar _
    · exact csvSpecial_alphChar _
    · exact csvSpecial_alphChar _
    · exact ih c hc

/-- The digest field `update_record` writes is emitted by the CSV writer
verbatim: none of its characters forces quoting. -/
theorem csvClean_digestField (bs : List Nat) :
    csvClean ("sha256=" ++ b64urlNoPad bs) = true := by
  rw [csvClean, String.data_append, List.all_append, Bool.and_eq_true]
  constructor
  · decide
  · rw [List.all_eq_true]
    intro c hc
    have hmem : c ∈ b64Groups bs := by
      have h1 : c ∈ (b64Groups bs).reverse.dropWhile (fun c => c == '=') := by
        simpa [b64urlNoPad, rstripEq] using hc
      exact List.mem_reverse.1 ((List.dropWhile_sublist _).mem h1)
    simp [csvSpecial_b64Groups bs c hmem]

/-- Decimal digit characters never force CSV quoting. -/
theorem csvSpecial_digitChar (m : Nat) : csvSpecial (Nat.digitChar m) = false := by
  rcases m with _|_|_|_|_|_|_|_|_|_|_|_|_|_|_|_|m <;> simp [Nat.digitChar, csvSpecial]

/-- All characters `Nat.toDigitsCore` emits are digits (or come from the
accumulator). -/
theorem toDigitsCore_clean (b : Nat) (f : Nat) :
    ∀ (n : Nat) (acc : List Char), (∀ c ∈ acc, csvSpecial c = false) →
      ∀ c ∈ Nat.toDigitsCore b f n acc, csvSpecial c = false := by
  induction f with
  | zero =>
    intro n acc hacc c hc
    simpa [Nat.toDigitsCore] using hacc c (by simpa [Nat.toDigitsCore] using hc)
  | succ f ih =>
    intro n acc hacc c hc
    simp only [Nat.toDigitsCore] at hc
    by_cases h : n / b = 0
    · rw [if_pos h] at hc
      rcases List.mem_cons.1 hc with rfl | hc
      · exact csvSpecial_digitChar _
      · exact hacc c hc
    · rw [if_neg h] at hc
      refine ih _ _ ?_ c hc
      intro c' hc'
      rcases List.mem_cons.1 hc' with rfl | hc'
      · exact csvSpecial_digitChar _
      · exact hacc c' hc'

/-- The decimal length field is emitted by the CSV writer verbatim. -/
theorem csvClean_natRepr (n : Nat) : csvClean (Nat.repr n) = true := by
  rw [csvClean, List.all_eq_true]
  intro c hc
  have : c ∈ Nat.toDigitsCore 10 (n + 1) n [] := by
    simpa [Nat.repr, Nat.toDigits, List.asString] using hc
  simp [toDigitsCore_clean 10 (n + 1) n [] (by simp) c this]

/-- A clean field is written as-is. -/
theorem csvField_clean (s : String) (h : csvClean s = true) : csvField s = s := by
  rw [csvField, if_pos h]

/-- The CSV line for the manifest's own row: path, then two empty
fields. -/
theorem lineOfRow_recordRow (d : List String)
    (h : csvClean (renderPath (recordPath d)) = true) :
    lineOfRow (recordPath d, "", "") = renderPath (recordPath d) ++ ",," := by
  show csvField (renderPath (recordPath d)) ++ "," ++ csvField "" ++ "," ++ csvField ""
      = renderPath (recordPath d) ++ ",,"
  rw [csvField_clean _ h, csvField_clean "" (by decide)]
  simp only [String.append_assoc]
  congr 1

/-- C2.  Row format of `update_record`: every regular file of the tree
other than the manifest gets exactly one row holding its relative path,
`sha256=` followed by the unpadded URL-safe base64 of the SHA-256 of its
bytes, and its decimal byte length; when the rendered path needs no CSV
quoting the serialized line is exactly the three fields joined by commas;
the manifest's own row comes last, with empty digest and length fields;
and every row is of one of these two forms, so there is no header row. -/
theorem record_row_format (ts : List FsTree) (distInfo : List String)
    (hwf : wfForest ts = true) (e : List String × List Nat)
    (he : e ∈ forestFiles ts) (hn : lastName e.1 ≠ "RECORD") :
    rowFor e ∈ updateRecordRows ts distInfo
    ∧ rowFor e = (e.1, "sha256=" ++ b64urlNoPad (sha256 e.2), Nat.repr e.2.length)
    ∧ (updateRecordRows ts distInfo).countP (fun r => decide (r.1 = e.1)) = 1
    ∧ (csvClean (renderPath e.1) = true →
        lineOfRow (rowFor e)
          = renderPath e.1 ++ "," ++ ("sha256=" ++ b64urlNoPad (sha256 e.2)) ++ ","
            ++ Nat.repr e.2.length)
    ∧ (updateRecordRows ts distInfo).getLast? = some (recordPath distInfo, "", "")
    ∧ (csvClean (renderPath (recordPath distInfo)) = true →
        lineOfRow (recordPath distInfo, "", "")
          = renderPath (recordPath distInfo) ++ ",,")
    ∧ (∀ r ∈ updateRecordRows ts distInfo,
        (∃ e' ∈ forestFiles ts, lastName e'.1 ≠ "RECORD" ∧ r = rowFor e')
        ∨ r = (recordPath distInfo, "", "")) := by
  have hnodup := wfForest_nodup_paths ts hwf
  refine ⟨?_, rfl, ?_, ?_, ?_, ?_, ?_⟩
  · rw [updateRecordRows]
    apply List.mem_append_left
    apply List.mem_map_of_mem
    exact List.mem_filter.2 ⟨he, by simp [hn]⟩
  · exact rows_countP_eq_one ts distInfo hnodup e.1 (List.mem_map_of_mem _ he) hn
  · intro hp
    show csvField (renderPath e.1) ++ "," ++ csvField ("sha256=" ++ b64urlNoPad (sha256 e.2))
        ++ "," ++ csvField (Nat.repr e.2.length) = _
    rw [csvField_clean _ hp, csvField_clean _ (csvClean_digestField (sha256 e.2)),
      csvField_clean _ (csvClean_natRepr e.2.length)]
  · rw [updateRecordRows]
    exact List.getLast?_concat _
  · intro hp
    exact lineOfRow_recordRow distInfo hp
  · intro r hr
    rw [updateRecordRows] at hr
    rcases List.mem_append.1 hr with h | h
    · left
      rcases List.mem_map.1 h with ⟨e', he', rfl⟩
      have := List.mem_filter.1 he'
      exact ⟨e', this.1, by simpa using this.2, rfl⟩
    · right
      simpa using h

set_option maxRecDepth 100000 in
/-- Witness for C2 on the example wheel tree: the module file gets its
row, and its serialized line is the three comma-joined fields. -/
theorem record_row_format_witness :
    rowFor (["m.py"], [104, 105]) ∈ updateRecordRows wheelTreeEx ["u.dist-info"]
    ∧ lineOfRow (rowFor (["m.py"], [104, 105]))
        = renderPath ["m.py"] ++ "," ++ ("sha256=" ++ b64urlNoPad (sha256 [104, 105])) ++ ","
          ++ Nat.repr ([104, 105] : List Nat).length := by
  have h := record_row_format wheelTreeEx ["u.dist-info"]
    (by simp [wfForest, childrenWf, wheelTreeEx, FsTree.name])
    (["m.py"], [104, 105])
    (by simp [forestFiles, subFiles, topFiles, wheelTreeEx])
    (by decide)
  exact ⟨h.1, h.2.2.2.1 (by decide)⟩

/-- C3 (amended).  The manifest visits every regular file exactly once
and lists rows in the `rglob` traversal order of the tree — the
directory-entry order, not a sorted order — with the manifest's own row
appended last; `pack_wheel` writes the archive entries in that same
traversal order (the manifest file sitting at its traversal position).
For a fixed tree, both outputs are fixed, so reproducibility holds
exactly when the directory-entry order is reproducible. -/
theorem record_pack_order (ts : List FsTree) (distInfo : List String)
    (hwf : wfForest ts = true) :
    ((forestFiles ts).map Prod.fst).Nodup
    ∧ (updateRecordRows ts distInfo).map (fun r => r.1)
        = ((forestFiles ts).map Prod.fst).filter (fun p => lastName p != "RECORD")
          ++ [recordPath distInfo]
    ∧ (packEntries (restructuredTree ts distInfo)).map Prod.fst
        = (forestFiles ts).map Prod.fst :=
  ⟨wfForest_nodup_paths ts hwf, updateRecordRows_paths ts distInfo,
    packEntries_paths ts distInfo⟩

/-- Witness for C3 (amended) on the example wheel tree. -/
theorem record_pack_order_witness :
    ((forestFiles wheelTreeEx).map Prod.fst).Nodup
    ∧ (packEntries (restructuredTree wheelTreeEx ["u.dist-info"])).map Prod.fst
        = (forestFiles wheelTreeEx).map Prod.fst := by
  have h := record_pack_order wheelTreeEx ["u.dist-info"]
    (by simp [wfForest, childrenWf, wheelTreeEx, FsTree.name])
  exact ⟨h.1, h.2.2⟩

set_option maxRecDepth 100000 in
/-- Counterexample to C3 as stated: on a well-formed tree whose
directory order lists `q.txt` before `a.txt`, `update_record` emits the
rows in that directory order, which is not lexicographic order of the
relative paths. -/
theorem record_order_not_lex :
    (updateRecordRows unsortedTreeEx ["di"]).map (fun r => renderPath r.1)
      = ["q.txt", "a.txt", "di/RECORD"]
    ∧ sortedStrings ["q.txt", "a.txt", "di/RECORD"] = false
    ∧ wfForest unsortedTreeEx = true := by
  refine ⟨?_, by decide, by simp [wfForest, childrenWf, unsortedTreeEx, FsTree.name]⟩
  simp only [updateRecordRows, forestFiles, subFiles, topFiles, unsortedTreeEx]
  decide

/-! ## The dependency resolver -/

/-- Characterization of `List.find?`: the hit satisfies the predicate and
everything listed before it fails it. -/
theorem find?_spec {α} (p : α → Bool) :
    ∀ (l : List α) (x : α), l.find? p = some x →
      p x = true ∧ ∃ l₁ l₂, l = l₁ ++ x :: l₂ ∧ ∀ y ∈ l₁, p y = false := by
  intro l
  induction l with
  | nil =>
    intro x h
    cases h
  | cons a l ih =>
    intro x h
    by_cases hpa : p a = true
    · rw [List.find?_cons_of_pos _ hpa, Option.some_inj] at h
      subst h
      exact ⟨hpa, [], l, rfl, by simp⟩
    · rw [List.find?_cons_of_neg _ (by simpa using hpa)] at h
      obtain ⟨hx, l₁, l₂, rfl, hl₁⟩ := ih x h
      refine ⟨hx, a :: l₁, l₂, rfl, ?_⟩
      intro y hy
      rcases List.mem_cons.1 hy with rfl | hy
      · simpa using hpa
      · exact hl₁ y hy

/-- Membership in the resolved set after folding the needed list. -/
theorem resolve_foldl_found (pfs : HostFs) (needed : List String) :
    ∀ (acc : Finset (String × String) × List String) (d name : String),
      ((d, name) ∈ (needed.foldl (resolveStep pfs) acc).1
        ↔ (d, name) ∈ acc.1
          ∨ (name ∈ needed ∧ isExcluded name = false ∧ firstHit pfs name = some d)) := by
  induction needed with
  | nil => simp
  | cons m rest ih =>
    intro acc d name
    rw [List.foldl_cons, ih]
    by_cases hex : isExcluded m = true
    · rw [resolveStep, if_pos hex]
      constructor
      · rintro (h | ⟨hm, hne, hfh⟩)
        · exact Or.inl h
        · exact Or.inr ⟨List.mem_cons_of_mem m hm, hne, hfh⟩
      · rintro (h | ⟨hm, hne, hfh⟩)
        · exact Or.inl h
        · rcases List.mem_cons.1 hm with rfl | hm
          · rw [hex] at hne
            cases hne
          · exact Or.inr ⟨hm, hne, hfh⟩
    · rcases hfh0 : firstHit pfs m with _ | d'
      · rw [resolveStep, if_neg hex, hfh0]
        constructor
        · rintro (h | ⟨hm, hne, hfh⟩)
          · exact Or.inl h
          · exact Or.inr ⟨List.mem_cons_of_mem m hm, hne, hfh⟩
        · rintro (h | ⟨hm, hne, hfh⟩)
          · exact Or.inl h
          · rcases List.mem_cons.1 hm with rfl | hm
            · rw [hfh0] at hfh
              cases hfh
            · exact Or.inr ⟨hm, hne, hfh⟩
      · rw [resolveStep, if_neg hex, hfh0]
        simp only [Finset.mem_insert, Prod.mk.injEq]
        constructor
        · rintro ((⟨rfl, rfl⟩ | h) | ⟨hm, hne, hfh⟩)
          · exact Or.inr ⟨List.mem_cons_self name rest, by simpa using hex, hfh0⟩
          · exact Or.inl h
          · exact Or.inr ⟨List.mem_cons_of_mem m hm, hne, hfh⟩
        · rintro (h | ⟨hm, hne, hfh⟩)
          · exact Or.inl (Or.inr h)
          · rcases List.mem_cons.1 hm with rfl | hm
            · rw [hfh0, Option.some_inj] at hfh
              exact Or.inl (Or.inl ⟨hfh.symm, rfl⟩)
            · exact Or.inr ⟨hm, hne, hfh⟩

/-- Membership in the warning list after folding the needed list. -/
theorem resolve_foldl_warn (pfs : HostFs) (needed : List String) :
    ∀ (acc : Finset (String × String) × List String) (name : String),
      (name ∈ (needed.foldl (resolveStep pfs) acc).2
        ↔ name ∈ acc.2
          ∨ (name ∈ needed ∧ isExcluded name = false ∧ firstHit pfs name = none)) := by
  induction needed with
  | nil => simp
  | cons m rest ih =>
    intro acc name
    rw [List.foldl_cons, ih]
    by_cases hex : isExcluded m = true
    · rw [resolveStep, if_pos hex]
      constructor
      · rintro (h | ⟨hm, hne, hfh⟩)
        · exact Or.inl h
        · exact Or.inr ⟨List.mem_cons_of_mem m hm, hne, hfh⟩
      · rintro (h | ⟨hm, hne, hfh⟩)
        · exact Or.inl h
        · rcases List.mem_cons.1 hm with rfl | hm
          · rw [hex] at hne
            cases hne
          · exact Or.inr ⟨hm, hne, hfh⟩
    · rcases hfh0 : firstHit pfs m with _ | d'
      · rw [resolveStep, if_neg hex, hfh0]
        simp only [List.mem_append, List.mem_singleton]
        constructor
        · rintro ((h | rfl) | ⟨hm, hne, hfh⟩)
          · exact Or.inl h
          · exact Or.inr ⟨List.mem_cons_self name rest, by simpa using hex, hfh0⟩
          · exact Or.inr ⟨List.mem_cons_of_mem m hm, hne, hfh⟩
        · rintro (h | ⟨hm, hne, hfh⟩)
          · exact Or.inl (Or.inl h)
          · rcases List.mem_cons.1 hm with rfl | hm
            · exact Or.inl (Or.inr rfl)
            · exact Or.inr ⟨hm, hne, hfh⟩
      · rw [resolveStep, if_neg hex, hfh0]
        constructor
        · rintro (h | ⟨hm, hne, hfh⟩)
          · exact Or.inl h
          · exact Or.inr ⟨List.mem_cons_of_mem m hm, hne, hfh⟩
        · rintro (h | ⟨hm, hne, hfh⟩)
          · exact Or.inl h
          · rcases List.mem_cons.1 hm with rfl | hm
            · rw [hfh0] at hfh
              cases hfh
            · exact Or.inr ⟨hm, hne, hfh⟩

/-- The resolved set holds exactly the non-excluded needed names found by
the directory search, each with its first-hit directory. -/
theorem resolve_found_iff (pfs : HostFs) (needed : List String) (d name : String) :
    (d, name) ∈ (resolveDependencies pfs needed).1
      ↔ name ∈ needed ∧ isExcluded name = false ∧ firstHit pfs name = some d := by
  rw [resolveDependencies, resolve_foldl_found]
  simp

/-- The warning list holds exactly the non-excluded needed names found in
no candidate directory. -/
theorem resolve_warn_iff (pfs : HostFs) (needed : List String) (name : String) :
    name ∈ (resolveDependencies pfs needed).2
      ↔ name ∈ needed ∧ isExcluded name = false ∧ firstHit pfs name = none := by
  rw [resolveDependencies, resolve_foldl_warn]
  simp

/-! ## Bundling into the libraries subtree -/

/-- Appending one file changes only its own name's count. -/
theorem countName_append_single (dest : LibDir) (y : String × List Nat) (n : String) :
    countName (dest ++ [y]) n = countName dest n + (if y.1 = n then 1 else 0) := by
  rw [countName, List.filter_append, List.length_append]
  have hy : (List.filter (fun e => decide (e.1 = n)) [y]).length
      = if y.1 = n then 1 else 0 := by
    by_cases h : y.1 = n <;> simp [List.filter, h]
  rw [hy, countName]

/-- A name is found exactly when it has entries. -/
theorem findEntry_isSome_iff (dest : LibDir) (n : String) :
    (findEntry dest n).isSome = true ↔ countName dest n ≠ 0 := by
  induction dest with
  | nil => simp [findEntry, countName]
  | cons a rest ih =>
    obtain ⟨k, v⟩ := a
    by_cases h : k = n
    · simp [findEntry, countName, List.filter_cons, h]
    · simp only [findEntry, if_neg h, countName, List.filter_cons, decide_eq_true_eq]
      exact ih

/-- Copying a dependency leaves other names' counts unchanged. -/
theorem countName_copyDep_ne (dest : LibDir) (dep : String × List Nat) (n : String)
    (h : dep.1 ≠ n) : countName (copyDep dest dep) n = countName dest n := by
  rw [copyDep]
  by_cases hl : (findEntry dest dep.1).isSome = true
  · rw [if_pos hl]
  · rw [if_neg hl, countName_append_single, if_neg h]
    omega

/-- Copying a dependency brings its own name's count to at least one and
never above its previous count. -/
theorem countName_copyDep_self (dest : LibDir) (dep : String × List Nat) :
    countName (copyDep dest dep) dep.1 = max (countName dest dep.1) 1 := by
  rw [copyDep]
  by_cases hl : (findEntry dest dep.1).isSome = true
  · rw [if_pos hl]
    have := (findEntry_isSome_iff dest dep.1).1 hl
    omega
  · rw [if_neg hl, countName_append_single, if_pos rfl]
    have : ¬ countName dest dep.1 ≠ 0 := fun hc => hl ((findEntry_isSome_iff dest dep.1).2 hc)
    omega

/-- Copying never lowers a count. -/
theorem countName_copyDep_mono (dest : LibDir) (dep : String × List Nat) (n : String) :
    countName dest n ≤ countName (copyDep dest dep) n := by
  by_cases h : dep.1 = n
  · subst h
    rw [countName_copyDep_self]
    omega
  · rw [countName_copyDep_ne dest dep n h]

/-- Folding a consumer's dependency list never lowers a count. -/
theorem countName_bundleDeps_mono (deps : List (String × List Nat)) :
    ∀ (dest : LibDir) (n : String),
      countName dest n ≤ countName (bundleDeps dest deps) n := by
  induction deps with
  | nil => intro dest n; simp [bundleDeps]
  | cons y ys ih =>
    intro dest n
    rw [bundleDeps, List.foldl_cons]
    exact le_trans (countName_copyDep_mono dest y n) (ih (copyDep dest y) n)

/-- Folding a consumer's dependency list keeps counts at one or below. -/
theorem countName_bundleDeps_le (deps : List (String × List Nat)) :
    ∀ (dest : LibDir) (n : String), countName dest n ≤ 1 →
      countName (bundleDeps dest deps) n ≤ 1 := by
  induction deps with
  | nil => intro dest n h; simpa [bundleDeps] using h
  | cons y ys ih =>
    intro dest n h
    rw [bundleDeps, List.foldl_cons]
    apply ih
    by_cases hy : y.1 = n
    · subst hy
      rw [countName_copyDep_self]
      omega
    · rw [countName_copyDep_ne dest y n hy]
      exact h

/-- A consumer that resolves a name makes its count positive. -/
theorem countName_bundleDeps_pos (deps : List (String × List Nat)) :
    ∀ (dest : LibDir) (n : String), (∃ c, (n, c) ∈ deps) →
      countName (bundleDeps dest deps) n ≠ 0 := by
  induction deps with
  | nil => rintro dest n ⟨c, hc⟩; cases hc
  | cons y ys ih =>
    rintro dest n ⟨c, hc⟩
    have hgoal : countName (bundleDeps dest (y :: ys)) n
        = countName (bundleDeps (copyDep dest y) ys) n := rfl
    rw [hgoal]
    rcases List.mem_cons.1 hc with rfl | hc
    · have h1 : countName (copyDep dest (n, c)) n = max (countName dest n) 1 :=
        countName_copyDep_self dest (n, c)
      have h2 := countName_bundleDeps_mono ys (copyDep dest (n, c)) n
      omega
    · exact ih (copyDep dest y) n ⟨c, hc⟩

/-- A consumer that never mentions a name leaves its count unchanged. -/
theorem countName_bundleDeps_skip (deps : List (String × List Nat)) :
    ∀ (dest : LibDir) (n : String), (∀ y ∈ deps, y.1 ≠ n) →
      countName (bundleDeps dest deps) n = countName dest n := by
  induction deps with
  | nil => intro dest n _; rfl
  | cons y ys ih =>
    intro dest n h
    show countName (bundleDeps (copyDep dest y) ys) n = countName dest n
    rw [ih (copyDep dest y) n (fun z hz => h z (List.mem_cons_of_mem y hz)),
      countName_copyDep_ne dest y n (h y (List.mem_cons_self y ys))]

/-- Every entry of the staged directory after one consumer's copies was
already there or is one of the consumer's dependencies. -/
theorem bundleDeps_mem (deps : List (String × List Nat)) :
    ∀ (dest : LibDir) (z : String × List Nat),
      z ∈ bundleDeps dest deps → z ∈ dest ∨ z ∈ deps := by
  induction deps with
  | nil => intro dest z h; exact Or.inl h
  | cons y ys ih =>
    intro dest z h
    rw [bundleDeps, List.foldl_cons] at h
    rcases ih (copyDep dest y) z h with h' | h'
    · rw [copyDep] at h'
      by_cases hl : (findEntry dest y.1).isSome = true
      · rw [if_pos hl] at h'
        exact Or.inl h'
      · rw [if_neg hl] at h'
        rcases List.mem_append.1 h' with h'' | h''
        · exact Or.inl h''
        · exact Or.inr (by simpa using Or.inl (by simpa using h''))
    · exact Or.inr (List.mem_cons_of_mem y h')

/-- C4.  Allowlist filtering: for the declared needed list of scenario A,
the resolved set holds exactly the two non-system names with their
first-hit directories and never `libc.so.6`; in general every resolved
dependency has a non-excluded name, and bundling only ever adds entries
drawn from the resolved dependencies, so no allowlisted name reaches the
libraries subtree. -/
theorem resolve_allowlist_filtering (pfs : HostFs) (d1 d2 : String)
    (h1 : firstHit pfs "libusb-1.0.so.0" = some d1)
    (h2 : firstHit pfs "libboost_program_options.so.1.74.0" = some d2) :
    (resolveDependencies pfs
        ["libusb-1.0.so.0", "libboost_program_options.so.1.74.0", "libc.so.6"]).1
      = {(d1, "libusb-1.0.so.0"), (d2, "libboost_program_options.so.1.74.0")}
    ∧ (∀ x ∈ (resolveDependencies pfs
        ["libusb-1.0.so.0", "libboost_program_options.so.1.74.0", "libc.so.6"]).1,
        x.2 ≠ "libc.so.6")
    ∧ (∀ (pfs' : HostFs) (needed : List String),
        ∀ x ∈ (resolveDependencies pfs' needed).1, isExcluded x.2 = false)
    ∧ (∀ (dest : LibDir) (deps : List (String × List Nat)),
        (∀ y ∈ deps, isExcluded y.1 = false) →
        ∀ z ∈ bundleDeps dest deps, isExcluded z.1 = false ∨ z ∈ dest) := by
  have hgen : ∀ (pfs' : HostFs) (needed : List String),
      ∀ x ∈ (resolveDependencies pfs' needed).1, isExcluded x.2 = false := by
    intro pfs' needed x hx
    obtain ⟨xd, xn⟩ := x
    exact ((resolve_found_iff pfs' needed xd xn).1 hx).2.1
  refine ⟨?_, ?_, hgen, ?_⟩
  · apply Finset.ext
    rintro ⟨xd, xn⟩
    rw [resolve_found_iff]
    simp only [Finset.mem_insert, Finset.mem_singleton, Prod.mk.injEq,
      List.mem_cons, List.not_mem_nil, or_false]
    constructor
    · rintro ⟨hm, hex, hfh⟩
      rcases hm with rfl | rfl | rfl
      · rw [h1, Option.some_inj] at hfh
        exact Or.inl ⟨hfh.symm, rfl⟩
      · rw [h2, Option.some_inj] at hfh
        exact Or.inr ⟨hfh.symm, rfl⟩
      · exact absurd hex (by decide)
    · rintro (⟨rfl, rfl⟩ | ⟨rfl, rfl⟩)
      · exact ⟨Or.inl rfl, by decide, h1⟩
      · exact ⟨Or.inr (Or.inl rfl), by decide, h2⟩
  · intro x hx hc
    have := hgen pfs _ x hx
    rw [hc] at this
    exact absurd this (by decide)
  · intro dest deps hdeps z hz
    rcases bundleDeps_mem deps dest z hz with h | h
    · exact Or.inr h
    · exact Or.inl (hdeps z h)

/-- Witness for C4 on a concrete host filesystem holding the two
libraries. -/
theorem resolve_allowlist_filtering_witness :
    (resolveDependencies hostFsUsb
        ["libusb-1.0.so.0", "libboost_program_options.so.1.74.0", "libc.so.6"]).1
      = {("/usr/lib", "libusb-1.0.so.0"),
         ("/usr/lib/x86_64-linux-gnu", "libboost_program_options.so.1.74.0")}
    ∧ (∀ x ∈ (resolveDependencies hostFsUsb
        ["libusb-1.0.so.0", "libboost_program_options.so.1.74.0", "libc.so.6"]).1,
        x.2 ≠ "libc.so.6") := by
  have h := resolve_allowlist_filtering hostFsUsb "/usr/lib" "/usr/lib/x86_64-linux-gnu"
    (by decide) (by decide)
  exact ⟨h.1, h.2.1⟩

/-- Counterexample to C5 as stated: `resolve_dependencies` checks
`candidate.exists()`, not that the candidate is a regular file, so with a
directory named like the wanted library in the first candidate directory
and the regular file in a later one, it resolves to the directory entry
rather than the first existing regular file. -/
theorem resolve_exists_not_file_counterexample :
    resolveDependencies hostFsEx ["libfoo.so.1"]
      = ({("/usr/lib/x86_64-linux-gnu", "libfoo.so.1")}, [])
    ∧ kindAt hostFsEx (joinPath "/usr/lib/x86_64-linux-gnu" "libfoo.so.1")
        = some FKind.dirE
    ∧ kindAt hostFsEx (joinPath "/usr/lib" "libfoo.so.1") = some FKind.file
    ∧ ¬ (∀ x ∈ (resolveDependencies hostFsEx ["libfoo.so.1"]).1,
          kindAt hostFsEx (joinPath x.1 x.2) = some FKind.file) := by
  refine ⟨by decide, by decide, by decide, ?_⟩
  intro hall
  have := hall ("/usr/lib/x86_64-linux-gnu", "libfoo.so.1") (by decide)
  exact absurd this (by decide)

/-- C5 (amended).  For each non-excluded needed name the resolver adds
exactly the pair of the name with the first candidate directory whose
entry for it exists (existence only — the code does not check that the
entry is a regular file); a name found nowhere is recorded in the warning
list, is omitted from the resolved set, resolution returns normally, and
a name no consumer resolves never enters the libraries subtree. -/
theorem resolve_first_hit_and_warnings (pfs : HostFs) (needed : List String)
    (name d : String) :
    (name ∈ (resolveDependencies pfs needed).2
      ↔ name ∈ needed ∧ isExcluded name = false ∧ firstHit pfs name = none)
    ∧ ((d, name) ∈ (resolveDependencies pfs needed).1
      ↔ name ∈ needed ∧ isExcluded name = false ∧ firstHit pfs name = some d)
    ∧ (firstHit pfs name = some d →
        pexists pfs (joinPath d name) = true
        ∧ ∃ l₁ l₂, searchDirs = l₁ ++ d :: l₂
            ∧ ∀ d' ∈ l₁, pexists pfs (joinPath d' name) = false)
    ∧ (firstHit pfs name = none →
        ∀ d', (d', name) ∉ (resolveDependencies pfs needed).1)
    ∧ (∀ (dest : LibDir) (consumers : List (List (String × List Nat))),
        (∀ deps ∈ consumers, ∀ y ∈ deps, y.1 ≠ name) →
        countName (bundleAll dest consumers) name = countName dest name) := by
  refine ⟨resolve_warn_iff pfs needed name, resolve_found_iff pfs needed d name, ?_, ?_, ?_⟩
  · intro hfh
    obtain ⟨hp, l₁, l₂, hsplit, hfail⟩ := find?_spec _ searchDirs d hfh
    exact ⟨hp, l₁, l₂, hsplit, hfail⟩
  · intro hnone d' hmem
    have := ((resolve_found_iff pfs needed d' name).1 hmem).2.2
    rw [hnone] at this
    cases this
  · intro dest consumers h
    induction consumers generalizing dest with
    | nil => rfl
    | cons deps rest ih =>
      show countName (bundleAll (bundleDeps dest deps) rest) name = countName dest name
      rw [ih (bundleDeps dest deps) (fun ds hds => h ds (List.mem_cons_of_mem deps hds)),
        countName_bundleDeps_skip deps dest name (h deps (List.mem_cons_self deps rest))]

set_option maxRecDepth 10000 in
/-- Witness for C5 (amended): a name found in no candidate directory is
warned about, omitted from the resolved set, and bundled nowhere. -/
theorem resolve_first_hit_and_warnings_witness :
    ("libzz.so.9" ∈ (resolveDependencies hostFsUsb ["libzz.so.9"]).2)
    ∧ (∀ d', ("libzz.so.9", d') ∈ []
        ∨ (d', "libzz.so.9") ∉ (resolveDependencies hostFsUsb ["libzz.so.9"]).1)
    ∧ countName (bundleAll [] [[("libusb-1.0.so.0", [1])]]) "libzz.so.9"
        = countName [] "libzz.so.9" := by
  have h := resolve_first_hit_and_warnings hostFsUsb ["libzz.so.9"] "libzz.so.9" "/usr/lib"
  refine ⟨h.1.mpr (by decide), ?_, ?_⟩
  · intro d'
    exact Or.inr ((resolve_first_hit_and_warnings hostFsUsb ["libzz.so.9"]
      "libzz.so.9" d').2.2.2.1 (by decide) d')
  · exact h.2.2.2.2 [] [[("libusb-1.0.so.0", [1])]] (by decide)

/-- Folding every consumer keeps counts at one or below. -/
theorem countName_bundleAll_le (consumers : List (List (String × List Nat))) :
    ∀ (dest : LibDir) (n : String), countName dest n ≤ 1 →
      countName (bundleAll dest consumers) n ≤ 1 := by
  induction consumers with
  | nil => intro dest n h; exact h
  | cons deps rest ih =>
    intro dest n h
    show countName (bundleAll (bundleDeps dest deps) rest) n ≤ 1
    exact ih (bundleDeps dest deps) n (countName_bundleDeps_le deps dest n h)

/-- Folding every consumer never lowers a count. -/
theorem countName_bundleAll_mono (consumers : List (List (String × List Nat))) :
    ∀ (dest : LibDir) (n : String),
      countName dest n ≤ countName (bundleAll dest consumers) n := by
  induction consumers with
  | nil => intro dest n; exact le_refl _
  | cons deps rest ih =>
    intro dest n
    exact le_trans (countName_bundleDeps_mono deps dest n) (ih (bundleDeps dest deps) n)

/-- A name some consumer resolves ends up present. -/
theorem countName_bundleAll_pos (consumers : List (List (String × List Nat))) :
    ∀ (dest : LibDir) (n : String), (∃ deps ∈ consumers, ∃ c, (n, c) ∈ deps) →
      countName (bundleAll dest consumers) n ≠ 0 := by
  induction consumers with
  | nil => rintro dest n ⟨deps, hdeps, _⟩; cases hdeps
  | cons deps rest ih =>
    rintro dest n ⟨ds, hds, c, hc⟩
    show countName (bundleAll (bundleDeps dest deps) rest) n ≠ 0
    rcases List.mem_cons.1 hds with rfl | hds
    · have h1 := countName_bundleDeps_pos ds dest n ⟨c, hc⟩
      have h2 := countName_bundleAll_mono rest (bundleDeps dest ds) n
      omega
    · exact ih (bundleDeps dest deps) n ⟨ds, hds, c, hc⟩

/-- C6.  Dependency deduplication: starting from an empty libraries
subtree, after all consumers are processed each name has at most one
entry, exactly one when some consumer resolved it; and a copy is made
only when no entry of that name exists yet. -/
theorem dependency_dedup (consumers : List (List (String × List Nat))) (n : String) :
    countName (bundleAll [] consumers) n ≤ 1
    ∧ ((∃ deps ∈ consumers, ∃ c, (n, c) ∈ deps) →
        countName (bundleAll [] consumers) n = 1)
    ∧ (∀ (dest : LibDir) (dep : String × List Nat),
        (findEntry dest dep.1).isSome = true → copyDep dest dep = dest) := by
  have hle : countName (bundleAll [] consumers) n ≤ 1 :=
    countName_bundleAll_le consumers [] n (by simp [countName])
  refine ⟨hle, ?_, ?_⟩
  · intro hex
    have := countName_bundleAll_pos consumers [] n hex
    omega
  · intro dest dep h
    rw [copyDep, if_pos h]

/-- Witness for C6, scenario D: two consumers both resolving
`libusb-1.0.so.0` leave exactly one entry of that name. -/
theorem dependency_dedup_witness :
    countName (bundleAll [] [[("libusb-1.0.so.0", [1])], [("libusb-1.0.so.0", [1])]])
      "libusb-1.0.so.0" = 1 :=
  (dependency_dedup [[("libusb-1.0.so.0", [1])], [("libusb-1.0.so.0", [1])]]
    "libusb-1.0.so.0").2.1 ⟨[("libusb-1.0.so.0", [1])], by decide, [1], by decide⟩


/-! ## Placement of the discovered `libuhd.so*` artifacts -/

/-- A name-preserving rewrite of the staged directory keeps all counts. -/
theorem countName_map_preserve (dest : LibDir) (n : String) (c : List Nat) (m : String) :
    countName (dest.map (fun e => if e.1 = n then (n, c) else e)) m
      = countName dest m := by
  induction dest with
  | nil => rfl
  | cons a rest ih =>
    have hname : ((if a.1 = n then ((n, c) : String × List Nat) else a)).1 = a.1 := by
      by_cases h : a.1 = n <;> simp [h]
    have ih' : (List.filter (fun e => decide (e.1 = m))
          (rest.map (fun e => if e.1 = n then (n, c) else e))).length
        = (List.filter (fun e => decide (e.1 = m)) rest).length := ih
    rw [List.map_cons, countName, List.filter_cons, countName, List.filter_cons]
    by_cases hm : a.1 = m
    · have hc1 : decide ((if a.1 = n then ((n, c) : String × List Nat) else a).1 = m)
          = true := by
        rw [hname]
        simpa using hm
      have hc2 : decide (a.1 = m) = true := by simpa using hm
      rw [if_pos hc1, if_pos hc2, List.length_cons, List.length_cons, ih']
    · have hc1 : ¬ decide ((if a.1 = n then ((n, c) : String × List Nat) else a).1 = m)
          = true := by
        rw [hname]
        simpa using hm
      have hc2 : ¬ decide (a.1 = m) = true := by simpa using hm
      rw [if_neg hc1, if_neg hc2]
      exact ih'

/-- After `upsert` the written name maps to the written bytes. -/
theorem findEntry_upsert_self (dest : LibDir) (n : String) (c : List Nat) :
    findEntry (upsert dest n c) n = some c := by
  rw [upsert]
  by_cases hl : (findEntry dest n).isSome = true
  · rw [if_pos hl]
    induction dest with
    | nil => simp [findEntry] at hl
    | cons a rest ih =>
      obtain ⟨k, v⟩ := a
      by_cases h : k = n
      · have h1 : ((k, v) : String × List Nat).1 = n := by simpa using h
        rw [List.map_cons, if_pos h1]
        simp [findEntry]
      · have h1 : ¬ ((k, v) : String × List Nat).1 = n := by simpa using h
        rw [List.map_cons, if_neg h1]
        show (if k = n then some v else findEntry (rest.map _) n) = some c
        rw [if_neg h]
        apply ih
        have : findEntry ((k, v) :: rest) n = findEntry rest n := by
          show (if k = n then some v else findEntry rest n) = _
          rw [if_neg h]
        rwa [this] at hl
  · rw [if_neg hl]
    induction dest with
    | nil => simp [findEntry]
    | cons a rest ih =>
      obtain ⟨k, v⟩ := a
      by_cases h : k = n
      · exfalso
        apply hl
        show (if k = n then some v else findEntry rest n).isSome = true
        rw [if_pos h]
        rfl
      · show (if k = n then some v else findEntry (rest ++ [(n, c)]) n) = some c
        rw [if_neg h]
        apply ih
        intro hc
        apply hl
        show (if k = n then some v else findEntry rest n).isSome = true
        rwa [if_neg h]

/-- `upsert` leaves other names' entries unchanged. -/
theorem findEntry_upsert_ne (dest : LibDir) (n : String) (c : List Nat) (m : String)
    (h : n ≠ m) : findEntry (upsert dest n c) m = findEntry dest m := by
  rw [upsert]
  by_cases hl : (findEntry dest n).isSome = true
  · rw [if_pos hl]
    clear hl
    induction dest with
    | nil => rfl
    | cons a rest ih =>
      obtain ⟨k, v⟩ := a
      by_cases hk : k = n
      · have h1 : ((k, v) : String × List Nat).1 = n := by simpa using hk
        rw [List.map_cons, if_pos h1]
        show (if n = m then some c else findEntry (rest.map _) m)
            = if k = m then some v else findEntry rest m
        rw [if_neg h, if_neg (fun hc => h (hk ▸ hc)), ih]
      · have h1 : ¬ ((k, v) : String × List Nat).1 = n := by simpa using hk
        rw [List.map_cons, if_neg h1]
        show (if k = m then some v else findEntry (rest.map _) m)
            = if k = m then some v else findEntry rest m
        by_cases hkm : k = m
        · rw [if_pos hkm, if_pos hkm]
        · rw [if_neg hkm, if_neg hkm, ih]
  · rw [if_neg hl]
    induction dest with
    | nil =>
      show (if n = m then some c else none) = none
      rw [if_neg h]
    | cons a rest ih =>
      obtain ⟨k, v⟩ := a
      show (if k = m then some v else findEntry (rest ++ [(n, c)]) m)
          = if k = m then some v else findEntry rest m
      by_cases hkm : k = m
      · rw [if_pos hkm, if_pos hkm]
      · rw [if_neg hkm, if_neg hkm]
        apply ih
        intro hc
        apply hl
        by_cases hkn : k = n
        · show (if k = n then some v else findEntry rest n).isSome = true
          rw [if_pos hkn]
          rfl
        · show (if k = n then some v else findEntry rest n).isSome = true
          rwa [if_neg hkn]

/-- `upsert` brings the written name's count to at least one. -/
theorem countName_upsert_self (dest : LibDir) (n : String) (c : List Nat) :
    countName (upsert dest n c) n = max (countName dest n) 1 := by
  rw [upsert]
  by_cases hl : (findEntry dest n).isSome = true
  · rw [if_pos hl, countName_map_preserve]
    have := (findEntry_isSome_iff dest n).1 hl
    omega
  · rw [if_neg hl, countName_append_single, if_pos rfl]
    have : ¬ countName dest n ≠ 0 := fun hc => hl ((findEntry_isSome_iff dest n).2 hc)
    omega

/-- `upsert` leaves other names' counts unchanged. -/
theorem countName_upsert_ne (dest : LibDir) (n : String) (c : List Nat) (m : String)
    (h : n ≠ m) : countName (upsert dest n c) m = countName dest m := by
  rw [upsert]
  by_cases hl : (findEntry dest n).isSome = true
  · rw [if_pos hl, countName_map_preserve]
  · rw [if_neg hl, countName_append_single, if_neg h]
    omega

/-- Placing an artifact whose name differs from `m` (counting the target
name `libuhd.so` for the materialized symlink) touches neither `m`'s entry
nor its count. -/
theorem placeLib_other (dest : LibDir) (a : LibArtifact) (m : String)
    (h : LibArtifact.name a ≠ m) :
    findEntry (placeLib dest a) m = findEntry dest m
    ∧ countName (placeLib dest a) m = countName dest m := by
  cases a with
  | symlink n t =>
    simp only [LibArtifact.name] at h
    by_cases hn : n = "libuhd.so"
    · have heq : placeLib dest (.symlink n t) = upsert dest "libuhd.so" t := by
        show (if n = "libuhd.so" then upsert dest "libuhd.so" t else dest) = _
        rw [if_pos hn]
      rw [heq]
      exact ⟨findEntry_upsert_ne dest _ t m (hn ▸ h), countName_upsert_ne dest _ t m (hn ▸ h)⟩
    · have heq : placeLib dest (.symlink n t) = dest := by
        show (if n = "libuhd.so" then upsert dest "libuhd.so" t else dest) = _
        rw [if_neg hn]
      rw [heq]
      exact ⟨rfl, rfl⟩
  | real n c =>
    simp only [LibArtifact.name] at h
    exact ⟨findEntry_upsert_ne dest n c m h, countName_upsert_ne dest n c m h⟩

/-- Folding artifacts none of which is named `m` preserves `m`'s entry
and count. -/
theorem placeLibs_preserve (arts : List LibArtifact) :
    ∀ (dest : LibDir) (m : String), (∀ a ∈ arts, LibArtifact.name a ≠ m) →
      findEntry (arts.foldl placeLib dest) m = findEntry dest m
      ∧ countName (arts.foldl placeLib dest) m = countName dest m := by
  induction arts with
  | nil => intro dest m _; exact ⟨rfl, rfl⟩
  | cons a rest ih =>
    intro dest m h
    rw [List.foldl_cons]
    have hstep := placeLib_other dest a m (h a (List.mem_cons_self a rest))
    have hrest := ih (placeLib dest a) m (fun b hb => h b (List.mem_cons_of_mem a hb))
    exact ⟨hrest.1.trans hstep.1, hrest.2.trans hstep.2⟩

/-- On a duplicate-free artifact list, a symlink named `libuhd.so` or a
real file is materialized exactly once, as a regular entry holding its
payload bytes. -/
theorem placeLibs_effective (arts : List LibArtifact) :
    ∀ (dest : LibDir) (m : String) (v : List Nat),
      (arts.map LibArtifact.name).Nodup →
      ((LibArtifact.symlink m v ∈ arts ∧ m = "libuhd.so") ∨ LibArtifact.real m v ∈ arts) →
      countName dest m = 0 →
      findEntry (arts.foldl placeLib dest) m = some v
      ∧ countName (arts.foldl placeLib dest) m = 1 := by
  induction arts with
  | nil =>
    rintro dest m v _ (⟨hmem, _⟩ | hmem) _ <;> cases hmem
  | cons a rest ih =>
    intro dest m v hnodup hmem hcount
    rw [List.map_cons, List.nodup_cons] at hnodup
    by_cases hhead : LibArtifact.name a = m
    · have hrest_ne : ∀ b ∈ rest, LibArtifact.name b ≠ m := by
        intro b hb hc
        apply hnodup.1
        rw [hhead, ← hc]
        exact List.mem_map_of_mem LibArtifact.name hb
      have hplace : placeLib dest a = upsert dest m v := by
        rcases hmem with ⟨hmem, hlib⟩ | hmem
        · rcases List.mem_cons.1 hmem with rfl | hmem'
          · show (if m = "libuhd.so" then upsert dest "libuhd.so" v else dest) = _
            rw [if_pos hlib, hlib]
          · exact absurd rfl (hrest_ne _ hmem')
        · rcases List.mem_cons.1 hmem with rfl | hmem'
          · rfl
          · exact absurd rfl (hrest_ne _ hmem')
      rw [List.foldl_cons, hplace]
      have hpres := placeLibs_preserve rest (upsert dest m v) m hrest_ne
      refine ⟨hpres.1.trans (findEntry_upsert_self dest m v), ?_⟩
      rw [hpres.2, countName_upsert_self, hcount]
      simp
    · have hrest_mem :
          (LibArtifact.symlink m v ∈ rest ∧ m = "libuhd.so") ∨ LibArtifact.real m v ∈ rest := by
        rcases hmem with ⟨hmem, hlib⟩ | hmem
        · rcases List.mem_cons.1 hmem with rfl | hmem'
          · exact absurd rfl hhead
          · exact Or.inl ⟨hmem', hlib⟩
        · rcases List.mem_cons.1 hmem with rfl | hmem'
          · exact absurd rfl hhead
          · exact Or.inr hmem'
      rw [List.foldl_cons]
      apply ih (placeLib dest a) m v hnodup.2 hrest_mem
      rw [(placeLib_other dest a m hhead).2]
      exact hcount

/-- C7.  Symlink policy of the `libuhd.so*` placement loop: a discovered
symlink named `libuhd.so` is materialized as a regular entry holding its
resolved target's bytes; any other symlink is skipped outright; and a
discovered real file is copied exactly once under its own name. -/
theorem libuhd_symlink_policy (arts : List LibArtifact) (t : List Nat) (n : String)
    (c : List Nat) :
    (∀ (dest : LibDir) (m : String) (tc : List Nat), m ≠ "libuhd.so" →
        placeLib dest (.symlink m tc) = dest)
    ∧ ((arts.map LibArtifact.name).Nodup → LibArtifact.symlink "libuhd.so" t ∈ arts →
        findEntry (placeLibs arts) "libuhd.so" = some t
        ∧ countName (placeLibs arts) "libuhd.so" = 1)
    ∧ ((arts.map LibArtifact.name).Nodup → LibArtifact.real n c ∈ arts →
        findEntry (placeLibs arts) n = some c ∧ countName (placeLibs arts) n = 1) := by
  refine ⟨?_, ?_, ?_⟩
  · intro dest m tc h
    show (if m = "libuhd.so" then upsert dest "libuhd.so" tc else dest) = dest
    rw [if_neg h]
  · intro hnodup hmem
    exact placeLibs_effective arts [] "libuhd.so" t hnodup (Or.inl ⟨hmem, rfl⟩)
      (by simp [countName])
  · intro hnodup hmem
    exact placeLibs_effective arts [] n c hnodup (Or.inr hmem) (by simp [countName])

/-- Witness for C7 on a typical glob result: the linker-name symlink, the
versioned real file, and an intermediate versioned symlink. -/
theorem libuhd_symlink_policy_witness :
    findEntry (placeLibs [.symlink "libuhd.so" [7], .real "libuhd.so.4.6.0" [7],
        .symlink "libuhd.so.4" [7]]) "libuhd.so" = some [7]
    ∧ countName (placeLibs [.symlink "libuhd.so" [7], .real "libuhd.so.4.6.0" [7],
        .symlink "libuhd.so.4" [7]]) "libuhd.so" = 1
    ∧ findEntry (placeLibs [.symlink "libuhd.so" [7], .real "libuhd.so.4.6.0" [7],
        .symlink "libuhd.so.4" [7]]) "libuhd.so.4.6.0" = some [7]
    ∧ placeLib [] (.symlink "libuhd.so.4" [7]) = [] := by
  have h := libuhd_symlink_policy
    [.symlink "libuhd.so" [7], .real "libuhd.so.4.6.0" [7], .symlink "libuhd.so.4" [7]]
    [7] "libuhd.so.4.6.0" [7]
  have h2 := h.2.1 (by decide) (by decide)
  have h3 := h.2.2 (by decide) (by decide)
  exact ⟨h2.1, h2.2, h3.1, h.1 [] "libuhd.so.4" [7] (by decide)⟩

/-! ## Search-path rewriting and the scripts loop -/

/-- C8.  Search-path rewrite policy: scripts get `$ORIGIN/../lib`, the
compiled extension gets `$ORIGIN/../../..`, bundled dependencies and the
materialized `libuhd.so` copies get `$ORIGIN` alone; `patchelf
--set-rpath` replaces the search path outright (independent of its prior
value) while leaving the other bytes untouched; and no rewritten search
path has an absolute component. -/
theorem rpath_policy :
    rpathFor .script = "$ORIGIN/../lib"
    ∧ rpathFor .pyext = "$ORIGIN/../../.."
    ∧ rpathFor .bundledDep = "$ORIGIN"
    ∧ rpathFor .libuhdCopy = "$ORIGIN"
    ∧ (∀ (b : Binary) (k : PlacementKind),
        (setRpath b (rpathFor k)).rpath = rpathFor k
        ∧ (setRpath b (rpathFor k)).bytes = b.bytes)
    ∧ (∀ k, noAbsComponent (rpathFor k) = true) := by
  refine ⟨rfl, rfl, rfl, rfl, fun b k => ⟨rfl, rfl⟩, fun k => ?_⟩
  cases k <;> decide

/-- Counterexample to C9 as stated: on a file whose first four bytes are
not the ELF magic, the scripts loop skips the rewrite silently — the
claimed warning is never emitted (the code's magic check has no else
branch). -/
theorem nonelf_no_warning_counterexample :
    (Binary.mk [0, 0, 0, 0] "old").bytes.take 4 ≠ elfMagic
    ∧ (processScriptItem ⟨[0, 0, 0, 0], "old"⟩).invoked = false
    ∧ (processScriptItem ⟨[0, 0, 0, 0], "old"⟩).out = ⟨[0, 0, 0, 0], "old"⟩
    ∧ (processScriptItem ⟨[0, 0, 0, 0], "old"⟩).warnings = [] := by
  exact ⟨by decide, rfl, rfl, rfl⟩

/-- C9 (amended).  For a scripts-location file whose first four bytes are
not the ELF magic, the rewrite tool is not invoked, the file is left
unchanged, no warning is emitted, and processing returns normally. -/
theorem nonelf_silent_skip (b : Binary) (h : b.bytes.take 4 ≠ elfMagic) :
    (processScriptItem b).invoked = false
    ∧ (processScriptItem b).out = b
    ∧ (processScriptItem b).warnings = [] := by
  unfold processScriptItem
  rw [if_neg h]
  exact ⟨rfl, rfl, rfl⟩

/-- Witness for C9 (amended) on a non-ELF file. -/
theorem nonelf_silent_skip_witness :
    ((⟨[77, 90, 0, 0], "p"⟩ : Binary).bytes.take 4 ≠ elfMagic)
    ∧ (processScriptItem ⟨[77, 90, 0, 0], "p"⟩).invoked = false
    ∧ (processScriptItem ⟨[77, 90, 0, 0], "p"⟩).out = ⟨[77, 90, 0, 0], "p"⟩
    ∧ (processScriptItem ⟨[77, 90, 0, 0], "p"⟩).warnings = [] := by
  have h := nonelf_silent_skip ⟨[77, 90, 0, 0], "p"⟩ (by decide)
  exact ⟨by decide, h.1, h.2.1, h.2.2⟩

/-! ## NumPy specifier normalization -/

/-- A list starts with itself as a leading segment. -/
theorem leadsWith_append_self (s pre : List Char) : leadsWith (pre ++ s) pre = true := by
  induction pre with
  | nil => simp [leadsWith]
  | cons b bs ih => simp [leadsWith, ih]

/-- Operator detection distributes over append. -/
theorem hasOpChar_append (a b : List Char) :
    hasOpChar (a ++ b) = (hasOpChar a || hasOpChar b) := by
  simp [hasOpChar, List.any_append]

/-- C10.  NumPy specifier normalization in `write_setup_py`: the result
always starts with `numpy` and contains one of the operator characters;
an input with no operator character gets `==` inserted before it (and
then `numpy` prepended, since `==...` cannot start with `numpy`); an
input that already starts with `numpy` and has an operator character
passes through unchanged. -/
theorem numpy_spec_normalization (s : List Char) :
    leadsWith (normalizeNumpySpec s) numpyChars = true
    ∧ hasOpChar (normalizeNumpySpec s) = true
    ∧ (hasOpChar s = false → normalizeNumpySpec s = numpyChars ++ '=' :: '=' :: s)
    ∧ (leadsWith s numpyChars = true → hasOpChar s = true → normalizeNumpySpec s = s) := by
  have hdef : normalizeNumpySpec s
      = (if leadsWith (if hasOpChar s then s else '=' :: '=' :: s) numpyChars
         then (if hasOpChar s then s else '=' :: '=' :: s)
         else numpyChars ++ (if hasOpChar s then s else '=' :: '=' :: s)) := rfl
  by_cases h : hasOpChar s = true
  · rw [hdef, if_pos h]
    by_cases hl : leadsWith s numpyChars = true
    · rw [if_pos hl]
      refine ⟨hl, h, ?_, fun _ _ => rfl⟩
      intro hcontra
      rw [hcontra] at h
      cases h
    · rw [if_neg hl]
      refine ⟨leadsWith_append_self s numpyChars, ?_, ?_, ?_⟩
      · rw [hasOpChar_append, h]
        simp
      · intro hcontra
        rw [hcontra] at h
        cases h
      · intro hlead _
        exact absurd hlead hl
  · have hb : hasOpChar s = false := by simpa using h
    rw [hdef, if_neg (by rw [hb]; simp : ¬ (hasOpChar s = true))]
    have hlead2 : leadsWith ('=' :: '=' :: s) numpyChars = false := rfl
    rw [if_neg (by rw [hlead2]; simp : ¬ (leadsWith ('=' :: '=' :: s) numpyChars = true))]
    refine ⟨leadsWith_append_self _ _, ?_, fun _ => rfl, ?_⟩
    · have h2 : hasOpChar ('=' :: '=' :: s) = true := rfl
      rw [hasOpChar_append, h2]
      simp
    · intro _ hop
      rw [hop] at hb
      cases hb

/-- Witness for C10 on the default specifier `<2` (normalized to
`numpy<2` via prepending) and on an operator-free input `1.24`
(normalized to `numpy==1.24`). -/
theorem numpy_spec_normalization_witness :
    leadsWith (normalizeNumpySpec ['<', '2']) numpyChars = true
    ∧ normalizeNumpySpec ['1', '.', '2', '4'] = numpyChars ++ '=' :: '=' :: ['1', '.', '2', '4']
    ∧ normalizeNumpySpec (numpyChars ++ ['<', '2']) = numpyChars ++ ['<', '2'] := by
  refine ⟨(numpy_spec_normalization ['<', '2']).1, ?_, ?_⟩
  · exact (numpy_spec_normalization ['1', '.', '2', '4']).2.2.1 (by decide)
  · exact (numpy_spec_normalization (numpyChars ++ ['<', '2'])).2.2.2 (by decide) (by decide)
